import Mathlib

/-!
# Verification of the zejzl.net static content pipeline

Shallow embedding of `src/lib/blog.ts` and `src/app/sitemap.ts`:
frontmatter-driven post construction (title / excerpt / tags / reading time),
the heading extractor and its id algorithm, the collection sort, the
`getPostBySlug` lookup, the sitemap generator, and the sanitization schema.

Strings are modelled as Lean `String` / `List Char`; the documents in
question are ASCII, and JavaScript string operations are embedded at
code-point granularity (UTF-16 surrogate pairs do not occur in the inputs
considered).  External npm libraries (the remark/rehype render pipeline,
`reading-time`, `gray-matter`) are not part of the repository; where a claim
depends on them they are modelled from the specification, each such
definition marked `Modelled from the spec:` in its doc comment.
-/

namespace Zejzl

/-- The JavaScript `\s` character class (ECMA-262 WhiteSpace ∪ LineTerminator):
tab, LF, VT, FF, CR, space, NBSP, and the Unicode space separators. -/
def jsWs (c : Char) : Bool :=
  c = ' ' || c = '\t' || c = '\n' || c = '\r' ||
  c = '\x0b' || c = '\x0c' ||
  c.val = 0xa0 || c.val = 0x1680 ||
  (0x2000 ≤ c.val && c.val ≤ 0x200a) ||
  c.val = 0x2028 || c.val = 0x2029 || c.val = 0x202f ||
  c.val = 0x205f || c.val = 0x3000 || c.val = 0xfeff

/-!
## The `\s+(.+)$` tail of the heading / title regexes

`src/lib/blog.ts` scans the body with `/^#\s+(.+)$/m` (title fallback) and
`/^(#{2,3})\s+(.+)$/gm` (heading extractor).  Both share the tail
`\s+(.+)$`.  JavaScript regex semantics: `\s+` is greedy and may span
newlines (`\s` matches `\n`), `.` never matches `\n`, `$` (multiline)
matches at end of input or before `\n`, and on failure the engine backtracks
`\s+` to shorter lengths.  `matchTail s` runs this tail on `s` (the text
after the `#` marker) and returns the text captured by `(.+)` together with
the number of characters of `s` the whole tail consumed.
-/

/-- Backtracking search used when everything after the whitespace run is
exhausted: try `\s+` of length `k, k-1, …, 1` until `(.+)` can capture a
nonempty newline-free run. -/
def backtrackTail (s : List Char) : Nat → Option (List Char × Nat)
  | 0 => none
  | k + 1 =>
    match (s.drop (k + 1)).head? with
    | some c =>
      if c ≠ '\n' then
        let cap := (s.drop (k + 1)).takeWhile (· ≠ '\n')
        some (cap, (k + 1) + cap.length)
      else backtrackTail s k
    | none => backtrackTail s k

/-- Run `\s+(.+)$` on `s`: greedy whitespace, then a maximal nonempty
newline-free capture ending at a line end.  When `s` is all whitespace the
engine backtracks `\s+` for a whitespace capture. -/
def matchTail (s : List Char) : Option (List Char × Nat) :=
  if (s.takeWhile jsWs).length = 0 then none
  else if s.length ≤ (s.takeWhile jsWs).length then
    backtrackTail s ((s.takeWhile jsWs).length - 1)
  else
    some ((s.drop (s.takeWhile jsWs).length).takeWhile (· ≠ '\n'),
      (s.takeWhile jsWs).length +
        ((s.drop (s.takeWhile jsWs).length).takeWhile (· ≠ '\n')).length)

/-- Length of the run of `'#'` characters at the head of `s`. -/
def hashCount (s : List Char) : Nat := (s.takeWhile (· = '#')).length

/-- Drop through the end of the current line, landing at the start of the
next line (the next position where multiline `^` can match). -/
def dropLine (s : List Char) : List Char := (s.dropWhile (· ≠ '\n')).drop 1

theorem length_dropWhile_le (p : Char → Bool) (t : List Char) :
    (t.dropWhile p).length ≤ t.length := by
  induction t with
  | nil => simp
  | cons a t ih =>
    rw [List.dropWhile_cons]
    split <;> simp <;> omega

theorem dropLine_length_le (t : List Char) : (dropLine t).length ≤ t.length := by
  unfold dropLine
  have h1 := length_dropWhile_le (· ≠ '\n') t
  have h2 := ((t.dropWhile (· ≠ '\n'))).length_drop 1
  omega

theorem dropLine_length_lt {s : List Char} (h : s ≠ []) :
    (dropLine s).length < s.length := by
  unfold dropLine
  rcases hd : s.dropWhile (· ≠ '\n') with _ | ⟨c, t⟩
  · cases s with
    | nil => exact absurd rfl h
    | cons a s' => simp
  · have hle := length_dropWhile_le (· ≠ '\n') s
    rw [hd] at hle
    simp at hle ⊢
    omega

/-- A raw match of the heading regex: capture-1 length (the heading level)
and the capture-2 text. -/
structure RawHeading where
  level : Nat
  text : List Char
deriving DecidableEq, Repr

/-- Try `(#{2,3})\s+(.+)$` at a `^` position.  Returns the raw heading and
the total number of characters consumed.  A run of four or more `#` fails
both alternatives (the character after the taken hashes is `#`, not `\s`). -/
def headingAt (s : List Char) : Option (RawHeading × Nat) :=
  if hashCount s = 2 ∨ hashCount s = 3 then
    match matchTail (s.drop (hashCount s)) with
    | some (cap, used) => some (⟨hashCount s, cap⟩, hashCount s + used)
    | none => none
  else none

theorem headingAt_used_ge {s : List Char} {hd : RawHeading} {used : Nat}
    (h : headingAt s = some (hd, used)) : 2 ≤ used := by
  unfold headingAt at h
  split at h
  · rename_i hor
    rcases hmt : matchTail (s.drop (hashCount s)) with _ | ⟨cap, u⟩ <;>
      rw [hmt] at h
    · exact absurd h (by simp)
    · simp only [Option.some.injEq, Prod.mk.injEq] at h
      omega
  · exact absurd h (by simp)

/-- Fuelled recursion for the global scan (each step of the scan consumes at
least one character, so any fuel of at least the input length is adequate;
structural recursion on the fuel keeps the function kernel-reducible). -/
def scanFuel : Nat → List Char → List RawHeading
  | 0, _ => []
  | fuel + 1, s =>
    if s = [] then []
    else
      match headingAt s with
      | some (hd, used) => hd :: scanFuel fuel (dropLine (s.drop used))
      | none => scanFuel fuel (dropLine s)

/-- The global scan of `/^(#{2,3})\s+(.+)$/gm` via repeated `exec`: at each
line start try the pattern; on a match resume after the line on which the
match ended, otherwise at the next line. -/
def scanHeadings (s : List Char) : List RawHeading :=
  scanFuel s.length s

theorem scanFuel_fuel_irrel :
    ∀ fuel fuel' s, s.length ≤ fuel → s.length ≤ fuel' →
      scanFuel fuel s = scanFuel fuel' s := by
  intro fuel
  induction fuel with
  | zero =>
    intro fuel' s hf hf'
    have : s = [] := List.length_eq_zero.mp (by omega)
    subst this
    cases fuel' <;> simp [scanFuel]
  | succ fuel ih =>
    intro fuel' s hf hf'
    by_cases hs : s = []
    · subst hs
      cases fuel' <;> simp [scanFuel]
    · have hpos : 0 < s.length := List.length_pos.mpr hs
      rcases fuel' with _ | fuel'
      · omega
      · rw [scanFuel, scanFuel, if_neg hs, if_neg hs]
        rcases hm : headingAt s with _ | ⟨hd, used⟩ <;> simp only [hm]
        · have hlt := dropLine_length_lt hs
          rw [ih fuel' (dropLine s) (by omega) (by omega)]
        · have h2 : 2 ≤ used := headingAt_used_ge hm
          have h4 := dropLine_length_le (s.drop used)
          have h5 := s.length_drop used
          rw [ih fuel' (dropLine (s.drop used)) (by omega) (by omega)]

/-- The one-step unfolding of the scan. -/
theorem scanHeadings_eq (s : List Char) :
    scanHeadings s =
      (if s = [] then []
       else
        match headingAt s with
        | some (hd, used) => hd :: scanHeadings (dropLine (s.drop used))
        | none => scanHeadings (dropLine s)) := by
  by_cases hs : s = []
  · subst hs; simp [scanHeadings, scanFuel]
  · have hpos : 0 < s.length := List.length_pos.mpr hs
    obtain ⟨n, hl⟩ : ∃ n, s.length = n + 1 := ⟨s.length - 1, by omega⟩
    unfold scanHeadings
    rw [hl, scanFuel, if_neg hs, if_neg hs]
    rcases hm : headingAt s with _ | ⟨hd, used⟩ <;> simp only [hm]
    · have hlt := dropLine_length_lt hs
      exact scanFuel_fuel_irrel n (dropLine s).length (dropLine s)
        (by omega) (by omega)
    · have h2 : 2 ≤ used := headingAt_used_ge hm
      have h4 := dropLine_length_le (s.drop used)
      have h5 := s.length_drop used
      rw [scanFuel_fuel_irrel n (dropLine (s.drop used)).length
        (dropLine (s.drop used)) (by omega) (by omega)]

/-!
## The heading id algorithm

`src/lib/blog.ts` lines 140–144:
`text.toLowerCase().replace(/[^a-z0-9\s-]/g, '').replace(/\s+/g, '-')`.
-/

/-- A character kept by `replace(/[^a-z0-9\s-]/g, '')`. -/
def idKeep (c : Char) : Bool :=
  ('a' ≤ c && c ≤ 'z') || ('0' ≤ c && c ≤ '9') || jsWs c || c = '-'

/-- `replace(/\s+/g, '-')` with a flag recording whether the scan is inside
a whitespace run: the first character of each maximal run emits the hyphen,
the rest of the run emits nothing. -/
def collapseWsAux : Bool → List Char → List Char
  | _, [] => []
  | inRun, c :: rest =>
    if jsWs c then
      if inRun then collapseWsAux true rest
      else '-' :: collapseWsAux true rest
    else c :: collapseWsAux false rest

/-- `replace(/\s+/g, '-')`: each maximal whitespace run becomes one hyphen. -/
def collapseWs (s : List Char) : List Char := collapseWsAux false s

/-- The extractor's id: lower-case, strip characters outside `[a-z0-9\s-]`,
collapse each whitespace run to a single hyphen.  (`toLowerCase` embedded at
ASCII granularity; the heading texts in scope are ASCII.) -/
def headingIdChars (text : List Char) : List Char :=
  collapseWs ((text.map Char.toLower).filter idKeep)

/-- A table-of-contents entry as pushed by `getPostBySlug`. -/
structure Heading where
  id : String
  text : String
  level : Nat
deriving DecidableEq, Repr

/-- The Heading Extractor of `getPostBySlug` (lines 135–146): run the global
regex over the body, and derive each heading's id from its text. -/
def extractHeadings (content : String) : List Heading :=
  (scanHeadings content.toList).map fun h =>
    ⟨⟨headingIdChars h.text⟩, ⟨h.text⟩, h.level⟩

/-!
## The per-line reading of the extractor (claim C5)

The specification describes the extractor line by line: one heading per body
line beginning with exactly `##` or `###` followed by whitespace.  The
definitions below state that reading so it can be compared with
`extractHeadings`.
-/

/-- Split into lines at `'\n'` (the separators are dropped; a trailing
newline yields a final empty line, as `String.prototype.split` does). -/
def linesOf : List Char → List (List Char)
  | [] => [[]]
  | c :: rest =>
    if c = '\n' then [] :: linesOf rest
    else
      match linesOf rest with
      | [] => [[c]]
      | p :: ps => (c :: p) :: ps

/-- Join lines back with `'\n'`. -/
def joinLines : List (List Char) → List Char
  | [] => []
  | [l] => l
  | l :: ls => l ++ '\n' :: joinLines ls

/-- The heading regex applied to a single line (the specification's
line-by-line description of the extractor). -/
def lineHeading (l : List Char) : Option RawHeading :=
  if hashCount l = 2 ∨ hashCount l = 3 then
    (matchTail (l.drop (hashCount l))).map fun (cap, _) => ⟨hashCount l, cap⟩
  else none

/-- A line beginning with exactly `##` or `###` followed by a whitespace
character — the lines the claim says produce the headings. -/
def beginsHeadingMarker (l : List Char) : Bool :=
  (hashCount l = 2 || hashCount l = 3) &&
    (match (l.drop (hashCount l)).head? with
     | some c => jsWs c
     | none => false)

/-- A degenerate line: a `##`/`###` marker followed by nothing but
whitespace.  On such a line the `\s+` of the regex runs across the newline
and the match consumes text from the following lines. -/
def markerOnlyLine (l : List Char) : Bool :=
  (hashCount l = 2 || hashCount l = 3) && (l.drop (hashCount l)).all jsWs

/-!
## Title resolution

`src/lib/blog.ts` lines 124–129 (and identically 82–86):
`let title = data.title || ''; if (!title) { const match =
content.match(/^#\s+(.+)$/m); title = match ? match[1] : slug; }`.
-/

/-- Try `#\s+(.+)$` at a `^` position (note: a following `#` is not `\s`,
so `##`-lines do not match here). -/
def h1At (s : List Char) : Option (List Char) :=
  match s with
  | c :: rest => if c = '#' then (matchTail rest).map Prod.fst else none
  | [] => none

/-- Fuelled recursion for the title scan. -/
def findH1Fuel : Nat → List Char → Option (List Char)
  | 0, _ => none
  | fuel + 1, s =>
    if s = [] then none
    else
      match h1At s with
      | some cap => some cap
      | none => findH1Fuel fuel (dropLine s)

/-- `content.match(/^#\s+(.+)$/m)`: the capture of the first match, scanning
line starts left to right. -/
def findH1 (s : List Char) : Option (List Char) :=
  findH1Fuel s.length s

theorem findH1Fuel_fuel_irrel :
    ∀ fuel fuel' s, s.length ≤ fuel → s.length ≤ fuel' →
      findH1Fuel fuel s = findH1Fuel fuel' s := by
  intro fuel
  induction fuel with
  | zero =>
    intro fuel' s hf hf'
    have : s = [] := List.length_eq_zero.mp (by omega)
    subst this
    cases fuel' <;> simp [findH1Fuel]
  | succ fuel ih =>
    intro fuel' s hf hf'
    by_cases hs : s = []
    · subst hs
      cases fuel' <;> simp [findH1Fuel]
    · have hpos : 0 < s.length := List.length_pos.mpr hs
      rcases fuel' with _ | fuel'
      · omega
      · rw [findH1Fuel, findH1Fuel, if_neg hs, if_neg hs]
        rcases hm : h1At s with _ | cap <;> simp only [hm]
        · have hlt := dropLine_length_lt hs
          rw [ih fuel' (dropLine s) (by omega) (by omega)]

/-- The one-step unfolding of the title scan. -/
theorem findH1_eq (s : List Char) :
    findH1 s =
      (if s = [] then none
       else
        match h1At s with
        | some cap => some cap
        | none => findH1 (dropLine s)) := by
  by_cases hs : s = []
  · subst hs; simp [findH1, findH1Fuel]
  · have hpos : 0 < s.length := List.length_pos.mpr hs
    obtain ⟨n, hl⟩ : ∃ n, s.length = n + 1 := ⟨s.length - 1, by omega⟩
    unfold findH1
    rw [hl, findH1Fuel, if_neg hs, if_neg hs]
    rcases hm : h1At s with _ | cap <;> simp only [hm]
    have hlt := dropLine_length_lt hs
    exact findH1Fuel_fuel_irrel n (dropLine s).length (dropLine s)
      (by omega) (by omega)

/-- The fallback inside the `if (!title)` branch: the first `# `-heading
capture, else the slug. -/
def titleFallback (content slug : String) : String :=
  match findH1 content.toList with
  | some cap => ⟨cap⟩
  | none => slug

/-- Title resolution: frontmatter `title` when truthy, else the first
`# `-heading capture, else the slug. -/
def resolveTitle (fmTitle : Option String) (content : String) (slug : String) :
    String :=
  match fmTitle with
  | some t => if t = "" then titleFallback content slug else t
  | none => titleFallback content slug

/-!
## Excerpt resolution

`src/lib/blog.ts` lines 91–92: `const excerpt = data.excerpt ||
content.split('\n\n').find(p => p.trim() && !p.startsWith('#'))
?.substring(0, 200) + '...' || '';`  By precedence this parses as
`data.excerpt || (find(...)?.substring(0,200) + '...') || ''`.
-/

/-- `String.prototype.trim` on the character list. -/
def jsTrimL (l : List Char) : List Char :=
  ((l.dropWhile jsWs).reverse.dropWhile jsWs).reverse

/-- `content.split('\n\n')`: split at each non-overlapping, leftmost
occurrence of the two-character separator. -/
def splitParas : List Char → List (List Char)
  | [] => [[]]
  | '\n' :: '\n' :: rest => [] :: splitParas rest
  | c :: rest =>
    match splitParas rest with
    | [] => [[c]]
    | p :: ps => (c :: p) :: ps

/-- The fallback branch of the excerpt expression:
`content.split('\n\n').find(p => p.trim() && !p.startsWith('#'))
?.substring(0, 200) + '...'`.  When `find` yields no paragraph the
JavaScript expression evaluates `undefined + '...'`, which coerces to the
string `"undefined..."`; being truthy, it makes the final `|| ''`
unreachable. -/
def excerptFallback (content : String) : String :=
  match (splitParas content.toList).find?
      (fun p => !(jsTrimL p).isEmpty && !(p.head? == some '#')) with
  | some p => (⟨p.take 200⟩ : String) ++ "..."
  | none => "undefined..."

/-- Excerpt resolution with JavaScript truthiness on the frontmatter value. -/
def excerptOf (fmExcerpt : Option String) (content : String) : String :=
  match fmExcerpt with
  | some e => if e = "" then excerptFallback content else e
  | none => excerptFallback content

/-!
## Tags

`tags: data.tags || []` (lines 100 and 167).  The value arriving from the
frontmatter parse can be a list, a YAML null (`tags:` with no value), a
scalar string, or absent entirely; `||` substitutes `[]` exactly when the
value is falsy.
-/

/-- The shapes a frontmatter `tags` value can take after parsing. -/
inductive TagsVal where
  | missing
  | null
  | str (s : String)
  | list (l : List String)
deriving DecidableEq, Repr

/-- `data.tags || []`: undefined, null and `""` are falsy; any list
(including `[]`) and any non-empty string are truthy and pass through. -/
def resolveTags : TagsVal → TagsVal
  | .missing => .list []
  | .null => .list []
  | .str s => if s = "" then .list [] else .str s
  | .list l => .list l

/-!
## Reading time
-/

/-- Count maximal runs of non-whitespace characters (the flag records being
inside a word). -/
def countWordsAux : Bool → List Char → Nat
  | _, [] => 0
  | inWord, c :: rest =>
    if jsWs c then countWordsAux false rest
    else (if inWord then 0 else 1) + countWordsAux true rest

/-- Modelled from the spec: the `reading-time` package is not repository
code; §4.4 specifies a word count at a standard reading speed (200 words
per minute here), rendered as a human string `"N min read"`, deterministic
in the body text. -/
def readingTimeText (content : String) : String :=
  let words := countWordsAux false content.toList
  let minutes := max 1 ((words + 199) / 200)
  toString minutes ++ " min read"

/-!
## Documents and post records

`gray-matter` (the frontmatter parser) is an external package; a document is
modelled as its parse result: the frontmatter record `data` and the body
`content`.
-/

/-- Parsed frontmatter.  `readingTime` appears in the real documents but is
never read by `src/lib/blog.ts`. -/
structure FrontMatter where
  title : Option String := none
  author : Option String := none
  published : Option String := none
  excerpt : Option String := none
  tags : TagsVal := .missing
  readingTime : Option String := none
deriving DecidableEq, Repr

/-- A file of the posts directory: its name and its `gray-matter` parse. -/
structure MdFile where
  name : String
  data : FrontMatter
  content : String
deriving DecidableEq, Repr

/-- The post record built per file by `getAllPosts` (lines 93–101). -/
structure PostMeta where
  slug : String
  title : String
  author : Option String
  published : Option String
  readingTime : String
  tags : TagsVal
  excerpt : String
deriving DecidableEq, Repr

def buildPostMeta (slug : String) (data : FrontMatter) (content : String) :
    PostMeta where
  slug := slug
  title := resolveTitle data.title content slug
  author := data.author
  published := data.published
  readingTime := readingTimeText content
  tags := resolveTags data.tags
  excerpt := excerptOf data.excerpt content

/-- `fileName.endsWith('.md')` at code-point granularity. -/
def strEndsWith (s pat : String) : Bool :=
  pat.toList.isSuffixOf s.toList

/-- `fileName.replace(/\.md$/, '')`. -/
def stripMdExt (n : String) : String :=
  if strEndsWith n ".md" then ⟨n.toList.take (n.toList.length - 3)⟩ else n

/-!
## The collection sort

Lines 104–109: `.sort((a, b) => { if (a.published && b.published) { return
new Date(b.published).getTime() - new Date(a.published).getTime(); } return
0; })`.
-/

/-- Days from the civil epoch 1970-01-01 (the standard proleptic-Gregorian computation used by every date implementation; all divisions act on
non-negative operands, so truncating division is exact here). -/
def daysFromCivil (y : Int) (m d : Nat) : Int :=
  let y' : Int := if m ≤ 2 then y - 1 else y
  let era : Int := (if 0 ≤ y' then y' else y' - 399) / 400
  let yoe : Int := y' - era * 400
  let mp : Int := (Int.ofNat m + 9) % 12
  let doy : Int := (153 * mp + 2) / 5 + Int.ofNat d - 1
  let doe : Int := yoe * 365 + yoe / 4 - yoe / 100 + doy
  era * 146097 + doe - 719468

def isLeap (y : Int) : Bool := y % 4 = 0 && (y % 100 ≠ 0 || y % 400 = 0)

def daysInMonth (y : Int) (m : Nat) : Nat :=
  if m = 2 then (if isLeap y then 29 else 28)
  else if m = 4 ∨ m = 6 ∨ m = 9 ∨ m = 11 then 30
  else 31

private def digit (c : Char) : Nat := c.toNat - '0'.toNat

/-- Parse an ISO `YYYY-MM-DD` date-only form. -/
def parseYMD (s : String) : Option (Int × Nat × Nat) :=
  match s.toList with
  | [y1, y2, y3, y4, '-', m1, m2, '-', d1, d2] =>
    if [y1, y2, y3, y4, m1, m2, d1, d2].all Char.isDigit then
      let y : Int := Int.ofNat (digit y1 * 1000 + digit y2 * 100 + digit y3 * 10 + digit y4)
      let m := digit m1 * 10 + digit m2
      let d := digit d1 * 10 + digit d2
      if 1 ≤ m ∧ m ≤ 12 ∧ 1 ≤ d ∧ d ≤ daysInMonth y m then some (y, m, d)
      else none
    else none
  | _ => none

/-- `new Date(s).getTime()` for the ISO date-only form (UTC midnight);
`none` models `NaN` (an invalid date). -/
def jsDateTime (s : String) : Option Int :=
  (parseYMD s).map fun (y, m, d) => daysFromCivil y m d * 86400000

/-- The sort comparator of `getAllPosts`.  A `NaN` comparator value (an
unparseable date) compares false against every bound, which the engine
treats exactly like a tie, hence the `0` in the fall-through arms. -/
def comparePosts (a b : PostMeta) : Int :=
  match a.published, b.published with
  | some pa, some pb =>
    if pa = "" ∨ pb = "" then 0
    else
      match jsDateTime pa, jsDateTime pb with
      | some ta, some tb => tb - ta
      | _, _ => 0
  | _, _ => 0

/-- Fuelled merge of two runs (fuel at least the combined length is
adequate). -/
def mergeFuel (le : α → α → Bool) : Nat → List α → List α → List α
  | 0, l, r => l ++ r
  | _ + 1, [], r => r
  | _ + 1, a :: l, [] => a :: l
  | fuel + 1, a :: l, b :: r =>
    if le a b then a :: mergeFuel le fuel l (b :: r)
    else b :: mergeFuel le fuel (a :: l) r

/-- Merge two runs; a tie keeps the left element first. -/
def mergeLe (le : α → α → Bool) (l r : List α) : List α :=
  mergeFuel le (l.length + r.length) l r

theorem mergeFuel_fuel_irrel (le : α → α → Bool) :
    ∀ fuel fuel' l r, l.length + r.length ≤ fuel →
      l.length + r.length ≤ fuel' →
      mergeFuel le fuel l r = mergeFuel le fuel' l r := by
  intro fuel
  induction fuel with
  | zero =>
    intro fuel' l r hf hf'
    have hl : l = [] := List.length_eq_zero.mp (by omega)
    have hr : r = [] := List.length_eq_zero.mp (by omega)
    subst hl; subst hr
    cases fuel' <;> simp [mergeFuel]
  | succ fuel ih =>
    intro fuel' l r hf hf'
    rcases l with _ | ⟨a, l⟩
    · cases fuel' with
      | zero => simp [mergeFuel]
      | succ fuel' => cases r <;> simp [mergeFuel]
    · rcases r with _ | ⟨b, r⟩
      · cases fuel' with
        | zero => simp [mergeFuel]
        | succ fuel' => simp [mergeFuel]
      · rcases fuel' with _ | fuel'
        · simp at hf'
        · simp only [List.length_cons] at hf hf'
          have hbl : l.length + (b :: r).length ≤ fuel := by
            simp only [List.length_cons]; omega
          have hbl' : l.length + (b :: r).length ≤ fuel' := by
            simp only [List.length_cons]; omega
          have hal : (a :: l).length + r.length ≤ fuel := by
            simp only [List.length_cons]; omega
          have hal' : (a :: l).length + r.length ≤ fuel' := by
            simp only [List.length_cons]; omega
          simp only [mergeFuel]
          by_cases hab : le a b
          · rw [if_pos hab, if_pos hab, ih fuel' l (b :: r) hbl hbl']
          · rw [if_neg hab, if_neg hab, ih fuel' (a :: l) r hal hal']

theorem mergeLe_nil_left (le : α → α → Bool) (r : List α) :
    mergeLe le [] r = r := by
  cases r <;> simp [mergeLe, mergeFuel]

theorem mergeLe_nil_right (le : α → α → Bool) (l : List α) :
    mergeLe le l [] = l := by
  cases l <;> simp [mergeLe, mergeFuel]

theorem mergeLe_cons_cons (le : α → α → Bool) (a b : α) (l r : List α) :
    mergeLe le (a :: l) (b :: r) =
      (if le a b then a :: mergeLe le l (b :: r)
       else b :: mergeLe le (a :: l) r) := by
  have key : ∀ fuel (l r : List α), l.length + r.length ≤ fuel →
      mergeFuel le fuel l r = mergeLe le l r := fun fuel l r h =>
    mergeFuel_fuel_irrel le fuel (l.length + r.length) l r h (Nat.le_refl _)
  have hlen : (a :: l).length + (b :: r).length = (l.length + r.length + 1) + 1 := by
    simp only [List.length_cons]; omega
  show mergeFuel le ((a :: l).length + (b :: r).length) (a :: l) (b :: r) = _
  rw [hlen, mergeFuel]
  by_cases hab : le a b
  · rw [if_pos hab, if_pos hab, key _ l (b :: r) (by simp only [List.length_cons]; omega)]
  · rw [if_neg hab, if_neg hab, key _ (a :: l) r (by simp only [List.length_cons]; omega)]

/-- Fuelled top-down merge sort (fuel at least the length is adequate). -/
def mergeSortFuel (le : α → α → Bool) : Nat → List α → List α
  | 0, l => l
  | fuel + 1, l =>
    if l.length ≤ 1 then l
    else
      mergeLe le (mergeSortFuel le fuel (l.take (l.length / 2)))
        (mergeSortFuel le fuel (l.drop (l.length / 2)))

/-- Stable top-down merge sort. -/
def mergeSortBy (le : α → α → Bool) (l : List α) : List α :=
  mergeSortFuel le l.length l

theorem mergeSortFuel_fuel_irrel (le : α → α → Bool) :
    ∀ fuel fuel' l, l.length ≤ fuel → l.length ≤ fuel' →
      mergeSortFuel le fuel l = mergeSortFuel le fuel' l := by
  intro fuel
  induction fuel with
  | zero =>
    intro fuel' l hf hf'
    have : l = [] := List.length_eq_zero.mp (by omega)
    subst this
    cases fuel' <;> simp [mergeSortFuel]
  | succ fuel ih =>
    intro fuel' l hf hf'
    by_cases h1 : l.length ≤ 1
    · cases fuel' with
      | zero =>
        have : l = [] := List.length_eq_zero.mp (by omega)
        subst this
        simp [mergeSortFuel]
      | succ fuel' => simp [mergeSortFuel, h1]
    · rcases fuel' with _ | fuel'
      · omega
      · simp only [mergeSortFuel, if_neg h1]
        have ht : (l.take (l.length / 2)).length = l.length / 2 := by
          simp; omega
        have hd : (l.drop (l.length / 2)).length = l.length - l.length / 2 := by
          simp
        rw [ih fuel' (l.take (l.length / 2)) (by omega) (by omega),
          ih fuel' (l.drop (l.length / 2)) (by omega) (by omega)]

/-- The one-step unfolding of the merge sort. -/
theorem mergeSortBy_eq (le : α → α → Bool) (l : List α) :
    mergeSortBy le l =
      (if l.length ≤ 1 then l
       else
        mergeLe le (mergeSortBy le (l.take (l.length / 2)))
          (mergeSortBy le (l.drop (l.length / 2)))) := by
  by_cases h1 : l.length ≤ 1
  · rcases l with _ | ⟨a, l⟩
    · simp [mergeSortBy, mergeSortFuel]
    · have : l = [] := by
        cases l with
        | nil => rfl
        | cons b t => simp at h1
      subst this
      simp [mergeSortBy, mergeSortFuel]
  · have h2 : 2 ≤ l.length := by omega
    obtain ⟨n, hl⟩ : ∃ n, l.length = n + 1 := ⟨l.length - 1, by omega⟩
    have ht : (l.take ((n + 1) / 2)).length ≤ n := by
      simp only [List.length_take]; omega
    have hd : (l.drop ((n + 1) / 2)).length ≤ n := by
      simp only [List.length_drop]; omega
    unfold mergeSortBy
    rw [hl, mergeSortFuel, hl, if_neg (by omega : ¬ (n + 1 : Nat) ≤ 1),
      if_neg (by omega : ¬ (n + 1 : Nat) ≤ 1)]
    rw [mergeSortFuel_fuel_irrel le n (l.take ((n + 1) / 2)).length
        (l.take ((n + 1) / 2)) ht (Nat.le_refl _),
      mergeSortFuel_fuel_irrel le n (l.drop ((n + 1) / 2)).length
        (l.drop ((n + 1) / 2)) hd (Nat.le_refl _)]

/-- `Array.prototype.sort` with a JavaScript comparator, modelled as a
stable merge sort (ES2019 requires the sort to be stable; the V8 engine
behind Next.js implements TimSort, a stable merge sort).  An element stays
before another exactly when the comparator does not order it strictly
after. -/
def jsSortBy (cmp : α → α → Int) (l : List α) : List α :=
  mergeSortBy (fun a b => decide (cmp a b ≤ 0)) l

/-- `getAllPosts` (lines 67–112) over the parsed posts directory: keep the
`.md` files, build each post record, sort with the published-date
comparator. -/
def getAllPosts (files : List MdFile) : List PostMeta :=
  jsSortBy comparePosts
    ((files.filter (fun f => strEndsWith f.name ".md")).map fun f =>
      buildPostMeta (stripMdExt f.name) f.data f.content)

/-!
## `getPostBySlug`
-/

/-- The post record returned by `getPostBySlug` (lines 160–170).  The
`contentHtml` field is produced by the external remark/rehype pipeline; its
heading anchors are modelled separately by `renderedHeadingIds`, and the
string itself is not carried in this record. -/
structure BlogPostFull where
  slug : String
  title : String
  author : Option String
  published : Option String
  readingTime : String
  tags : TagsVal
  content : String
  headings : List Heading
deriving DecidableEq, Repr

def buildPostFull (slug : String) (data : FrontMatter) (content : String) :
    BlogPostFull where
  slug := slug
  title := resolveTitle data.title content slug
  author := data.author
  published := data.published
  readingTime := readingTimeText content
  tags := resolveTags data.tags
  content := content
  headings := extractHeadings content

/-- `getPostBySlug` (lines 114–171): `existsSync` then `readFileSync` on
`${slug}.md`, modelled by a lookup in the parsed directory listing. -/
def getPostBySlug (files : List MdFile) (slug : String) : Option BlogPostFull :=
  match files.find? (fun f => f.name == slug ++ ".md") with
  | none => none
  | some f => some (buildPostFull slug f.data f.content)

/-!
## Sitemap (`src/app/sitemap.ts`)
-/

inductive ChangeFreq where
  | weekly
  | daily
  | monthly
deriving DecidableEq, Repr

/-- `lastModified`: either `new Date(post.published)` or `new Date()` (the
generation instant). -/
inductive LastMod where
  | fromString (s : String)
  | generationTime
deriving DecidableEq, Repr

structure SitemapEntry where
  url : String
  lastModified : LastMod
  changeFrequency : ChangeFreq
  priority : ℚ
deriving DecidableEq, Repr

def baseUrl : String := "https://zejzl-net.vercel.app"

/-- `sitemap()` as a function of the `getAllPosts()` result. -/
def sitemapOf (posts : List PostMeta) : List SitemapEntry :=
  let blogUrls := posts.map fun post =>
    { url := baseUrl ++ "/blog/" ++ post.slug
      lastModified :=
        match post.published with
        | some p => if p = "" then .generationTime else .fromString p
        | none => .generationTime
      changeFrequency := .monthly
      priority := 7 / 10 : SitemapEntry }
  let staticPages : List SitemapEntry :=
    [{ url := baseUrl, lastModified := .generationTime,
       changeFrequency := .weekly, priority := 1 },
     { url := baseUrl ++ "/blog", lastModified := .generationTime,
       changeFrequency := .daily, priority := 9 / 10 }]
  staticPages ++ blogUrls

/-- The sitemap for a posts directory. -/
def sitemapOfFiles (files : List MdFile) : List SitemapEntry :=
  sitemapOf (getAllPosts files)

/-!
## The rendered heading anchors (claim C1)

The Markdown Renderer is the external remark/rehype pipeline, not repository
code; its heading-anchor ids are modelled from the specification (§4.2).
-/

/-- Modelled from the spec: §4.2's anchor id algorithm — "lower-casing the
heading text, stripping characters outside `[a-z0-9\s-]`, and replacing
whitespace runs with a single hyphen". -/
def specHeadingId (text : String) : String :=
  ⟨collapseWs ((text.toList.map Char.toLower).filter idKeep)⟩

/-- A fenced-code delimiter line (a line starting with three backticks,
possibly followed by an info string). -/
def isFenceLine (l : List Char) : Bool :=
  l.take 3 = "\x60\x60\x60".toList

/-- An ATX heading line: one to six `#` then a blank or the end of line. -/
def isAtxHeading (l : List Char) : Bool :=
  (1 ≤ hashCount l && hashCount l ≤ 6) &&
    (match (l.drop (hashCount l)).head? with
     | some c => c = ' ' || c = '\t'
     | none => true)

/-- The text content of an ATX heading line. -/
def atxText (l : List Char) : List Char :=
  ((l.drop (hashCount l)).dropWhile jsWs).reverse.dropWhile jsWs |>.reverse

/-- Modelled from the spec: §4.2 — the renderer "converts standard markdown
(headings, lists, tables, emphasis, links, images, fenced code blocks) to
HTML" and "injects a stable `id` attribute on every heading element"
generated by the §4.2 algorithm.  `renderedHeadingIds body` is the sequence
of those ids: one per ATX heading line lying outside fenced code blocks
(the contents of a fenced block are code, not headings).  Heading texts
considered here are plain (no inline markup). -/
def renderedHeadingIds (body : String) : List String :=
  go (linesOf body.toList) false
where
  go : List (List Char) → Bool → List String
    | [], _ => []
    | l :: ls, inFence =>
      if isFenceLine l then go ls (!inFence)
      else if !inFence && isAtxHeading l then
        specHeadingId ⟨atxText l⟩ :: go ls inFence
      else go ls inFence

/-!
## Sanitization (claim C7)

The `sanitizeSchema` of `src/lib/blog.ts` lines 15–50 is repository code and
is embedded below, including its `...defaultSchema.tagNames` and
`...defaultSchema.attributes` / `...defaultSchema.protocols` spreads
(lines 16, 18, 30, 44).  The sanitizer engine (`rehype-sanitize` /
`hast-util-sanitize`) and the base `defaultSchema` it extends are external
npm code; they are reproduced from their documented GitHub-style behaviour:
an element whose tag is allow-listed is kept with its attributes filtered
per tag (plus the wildcard list) and protocol-checked; a disallowed element
is dropped together with its content when its tag is in `strip`, and
unwrapped to its sanitized children otherwise — `strip` is never consulted
for an allow-listed tag.  Comment/doctype removal, the `ancestors` table
constraints, the DOM-clobber prefixing of `id`/`name` values and the
`required` auto-insertion on `input` are outside this fragment: none of
them changes which element names survive or which `href`/`src` protocols
are kept, which is all the claim speaks about.
-/

/-- A fragment of rendered HTML: element nodes with attributes, and text. -/
inductive HNode where
  | element (tag : String) (attrs : List (String × String))
      (children : List HNode)
  | text (s : String)

/-- `sanitizeSchema.strip` (line 49; written without a spread, it replaces
the base schema's `['script']`).  The engine consults this list only for an
element whose tag is NOT allow-listed: such an element is then removed with
its content instead of being unwrapped. -/
def stripTags : List String :=
  ["script", "style", "iframe", "object", "embed", "form", "input", "textarea"]

/-- Modelled from the spec: `defaultSchema.tagNames` of `hast-util-sanitize`
is external npm code spread into `sanitizeSchema.tagNames` (blog.ts line
18); its GitHub-style allow-list is reproduced here.  Note that it contains
`"input"` — GitHub renders GFM task-list checkboxes. -/
def defaultSchemaTagNames : List String :=
  ["a", "b", "blockquote", "br", "code", "dd", "del", "details", "dfn",
   "div", "dl", "dt", "em", "h1", "h2", "h3", "h4", "h5", "h6", "hr", "i",
   "img", "input", "ins", "kbd", "li", "ol", "p", "pre", "q", "rp", "rt",
   "ruby", "s", "samp", "section", "source", "span", "strike", "strong",
   "sub", "summary", "sup", "table", "tbody", "td", "tfoot", "th", "thead",
   "tr", "tt", "ul", "var"]

/-- An attribute allowance of a sanitization schema: a plain name admits any
value; a name with a value list admits only those values (a boolean
allowance is modelled as the string "true"). -/
structure AttrSpec where
  name : String
  values : Option (List String)
deriving DecidableEq, Repr

/-- Modelled from the spec: the per-tag part of `defaultSchema.attributes`
(external npm code spread into `sanitizeSchema.attributes`, blog.ts line
30).  In particular `input` may carry `type` only with value `checkbox` and
the boolean `disabled`, and `blockquote`/`del`/`ins`/`q` may carry
`cite`. -/
def defaultSchemaAttrs (tag : String) : List AttrSpec :=
  if tag = "a" then [⟨"href", none⟩]
  else if tag = "img" then [⟨"longDesc", none⟩, ⟨"src", none⟩]
  else if tag = "input" then
    [⟨"type", some ["checkbox"]⟩, ⟨"disabled", some ["true"]⟩]
  else if tag = "li" then [⟨"className", some ["task-list-item"]⟩]
  else if tag = "div" then [⟨"itemScope", none⟩, ⟨"itemType", none⟩]
  else if tag = "blockquote" ∨ tag = "del" ∨ tag = "ins" ∨ tag = "q" then
    [⟨"cite", none⟩]
  else if tag = "source" then [⟨"srcSet", none⟩]
  else []

/-- Modelled from the spec: `defaultSchema.attributes['*']` — the attribute
names the base schema allows on every element (neither `href` nor `src` is
among them).  The object spread of blog.ts line 30 keeps this wildcard
entry untouched. -/
def defaultSchemaWildcardAttrs : List AttrSpec :=
  ["abbr", "accept", "acceptCharset", "accessKey", "action", "align", "alt",
   "ariaDescribedBy", "ariaHidden", "ariaLabel", "ariaLabelledBy", "axis",
   "border", "cellPadding", "cellSpacing", "char", "charOff", "charSet",
   "checked", "clear", "cols", "colSpan", "color", "compact", "coords",
   "dateTime", "dir", "disabled", "encType", "htmlFor", "frame", "headers",
   "height", "hrefLang", "hSpace", "isMap", "id", "label", "lang",
   "maxLength", "media", "method", "multiple", "name", "noHref", "noShade",
   "noWrap", "open", "prompt", "profile", "rel", "rev", "rows", "rowSpan",
   "rules", "scope", "selected", "shape", "size", "span", "start",
   "summary", "tabIndex", "target", "title", "type", "useMap", "vAlign",
   "value", "vSpace", "width", "itemProp"].map (fun n => ⟨n, none⟩)

/-- `sanitizeSchema.tagNames` (lines 17–28): the array spread puts the whole
base list first, then the repository's additions.  Membership is what
matters downstream; duplicates are harmless. -/
def allowedTags : List String :=
  defaultSchemaTagNames ++
  ["code", "pre", "span",
   "table", "thead", "tbody", "tr", "th", "td",
   "h1", "h2", "h3", "h4", "h5", "h6",
   "p", "a", "img", "ul", "ol", "li",
   "blockquote", "em", "strong", "del", "br", "hr",
   "details", "summary", "sup", "sub"]

/-- The per-tag entries of `sanitizeSchema.attributes` (lines 29–41): the
object spread keeps every base-schema entry except those the repository
overrides by key — `code`, `span`, `pre`, `a`, `img`, `th`, `td`,
`h1`…`h6`; any other tag keeps its `defaultSchema.attributes` entry. -/
def allowedAttrs (tag : String) : List AttrSpec :=
  if tag = "code" ∨ tag = "span" ∨ tag = "pre" then [⟨"className", none⟩]
  else if tag = "a" then
    [⟨"href", none⟩, ⟨"title", none⟩, ⟨"target", none⟩, ⟨"rel", none⟩]
  else if tag = "img" then
    [⟨"src", none⟩, ⟨"alt", none⟩, ⟨"title", none⟩, ⟨"width", none⟩,
     ⟨"height", none⟩]
  else if tag = "th" ∨ tag = "td" then [⟨"align", none⟩]
  else if tag = "h1" ∨ tag = "h2" ∨ tag = "h3" ∨ tag = "h4" ∨ tag = "h5" ∨
      tag = "h6" then [⟨"id", none⟩]
  else defaultSchemaAttrs tag

/-- `sanitizeSchema.protocols` (lines 43–47): the spread keeps the base
schema's `cite`/`longDesc` entries and overrides `href` and `src`. -/
def allowedProtocols (attr : String) : List String :=
  if attr = "href" then ["http", "https", "mailto"]
  else if attr = "src" then ["http", "https", "data"]
  else if attr = "cite" ∨ attr = "longDesc" then ["http", "https"]
  else []

/-- The protocol of a URL value: the prefix before the first `':'`, provided
that colon appears before any `'/'`, `'?'` or `'#'`; a value without one is
relative and carries no protocol. -/
def urlProtocol (v : String) : Option String :=
  let pre := v.toList.takeWhile fun c => c ≠ ':' ∧ c ≠ '/' ∧ c ≠ '?' ∧ c ≠ '#'
  if (v.toList.drop pre.length).head? = some ':' then some ⟨pre⟩ else none

/-- Does a schema allowance admit this attribute/value pair? -/
def attrSpecAdmits (a : String × String) (s : AttrSpec) : Bool :=
  s.name = a.1 &&
    (match s.values with
     | none => true
     | some vs => a.2 ∈ vs)

/-- Is this attribute/value pair kept on `tag`?  The pair must be admitted
by the tag's allow-list or by the wildcard list, and a protocol-checked
attribute (`href`, `src`, `cite`, `longDesc`) must carry no protocol
(a relative value) or an allow-listed one. -/
def attrOk (tag : String) (a : String × String) : Bool :=
  (allowedAttrs tag ++ defaultSchemaWildcardAttrs).any (attrSpecAdmits a) &&
    (if a.1 = "href" ∨ a.1 = "src" ∨ a.1 = "cite" ∨ a.1 = "longDesc" then
      match urlProtocol a.2 with
      | some p => p ∈ allowedProtocols a.1
      | none => true
    else true)

mutual
/-- Modelled from the spec: the sanitization pass of `hast-util-sanitize`
under the configured `sanitizeSchema` — an allow-listed element is kept
with its attributes filtered; a disallowed element is removed with its
content when its tag is in `strip`, and unwrapped to its sanitized children
otherwise.  An allow-listed tag never reaches the `strip` test. -/
def sanitizeNode : HNode → List HNode
  | .text s => [.text s]
  | .element tag attrs children =>
    if tag ∈ allowedTags then
      [.element tag (attrs.filter (attrOk tag)) (sanitizeChildren children)]
    else if tag ∈ stripTags then []
    else sanitizeChildren children

def sanitizeChildren : List HNode → List HNode
  | [] => []
  | n :: ns => sanitizeNode n ++ sanitizeChildren ns
end

mutual
/-- The configured schema holds of a node: every element's tag is
allow-listed and every kept attribute is admitted, with protocol-checked
values relative or on an allow-listed protocol. -/
def nodeOk : HNode → Bool
  | .text _ => true
  | .element tag attrs children =>
    tag ∈ allowedTags && attrs.all (attrOk tag) && childrenOk children

def childrenOk : List HNode → Bool
  | [] => true
  | n :: ns => nodeOk n && childrenOk ns
end

/-!
## Supporting lemmas
-/

theorem head?_dropWhile_not (p : Char → Bool) (l : List Char) :
    ∀ c, (l.dropWhile p).head? = some c → p c = false := by
  induction l with
  | nil => intro c h; simp at h
  | cons a t ih =>
    intro c h
    rw [List.dropWhile_cons] at h
    split at h
    · exact ih c h
    · rename_i hp
      simp at h
      subst h
      simpa using hp

theorem drop_length_takeWhile (p : Char → Bool) (l : List Char) :
    l.drop (l.takeWhile p).length = l.dropWhile p := by
  induction l with
  | nil => simp
  | cons a t ih =>
    rw [List.takeWhile_cons, List.dropWhile_cons]
    split
    · simpa using ih
    · simp

theorem takeWhile_ne_nil_of_head {p : Char → Bool} {l : List Char} {c : Char}
    (hh : l.head? = some c) (hp : p c = true) : l.takeWhile p ≠ [] := by
  cases l with
  | nil => simp at hh
  | cons a t =>
    simp at hh
    subst hh
    rw [List.takeWhile_cons, if_pos hp]
    simp

theorem backtrackTail_cap_ne_nil {s : List Char} {cap : List Char} {u : Nat} :
    ∀ k, backtrackTail s k = some (cap, u) → cap ≠ [] := by
  intro k
  induction k with
  | zero => intro h; simp [backtrackTail] at h
  | succ k ih =>
    intro h
    unfold backtrackTail at h
    rcases hh : (s.drop (k + 1)).head? with _ | c <;> simp only [hh] at h
    · exact ih h
    · by_cases hc : c = '\n'
      · rw [if_neg (not_not_intro hc)] at h
        exact ih h
      · rw [if_pos hc] at h
        simp only [Option.some.injEq, Prod.mk.injEq] at h
        rcases h with ⟨hcap, -⟩
        rw [← hcap]
        exact takeWhile_ne_nil_of_head hh (by simpa using hc)

theorem matchTail_cap_ne_nil {s cap : List Char} {u : Nat}
    (h : matchTail s = some (cap, u)) : cap ≠ [] := by
  unfold matchTail at h
  split at h
  · exact absurd h (by simp)
  · split at h
    · exact backtrackTail_cap_ne_nil _ h
    · rename_i hz hw
      simp only [Option.some.injEq, Prod.mk.injEq] at h
      rcases h with ⟨hcap, -⟩
      rw [drop_length_takeWhile] at hcap
      rcases hd : s.dropWhile jsWs with _ | ⟨c, t⟩
      · exfalso
        have hlen := congrArg List.length (drop_length_takeWhile jsWs s)
        rw [hd] at hlen
        simp only [List.length_drop, List.length_nil] at hlen
        omega
      · have hc : jsWs c = false :=
          head?_dropWhile_not jsWs s c (by rw [hd]; rfl)
        have hcn : c ≠ '\n' := by
          intro he; rw [he] at hc; simp [jsWs] at hc
        rw [← hcap, hd]
        exact takeWhile_ne_nil_of_head (l := c :: t) rfl (by simpa using hcn)

theorem h1At_cap_ne_nil {s cap : List Char}
    (h : h1At s = some cap) : cap ≠ [] := by
  rcases s with _ | ⟨c, rest⟩
  · simp [h1At] at h
  · simp only [h1At] at h
    split at h
    · rcases hmt : matchTail rest with _ | ⟨cp, u⟩ <;> rw [hmt] at h
      · simp at h
      · simp only [Option.map_some', Option.some.injEq] at h
        rw [← h]
        exact matchTail_cap_ne_nil hmt
    · simp at h

theorem findH1Fuel_cap_ne_nil :
    ∀ fuel (s cap : List Char), findH1Fuel fuel s = some cap → cap ≠ [] := by
  intro fuel
  induction fuel with
  | zero => intro s cap h; simp [findH1Fuel] at h
  | succ fuel ih =>
    intro s cap h
    rw [findH1Fuel] at h
    by_cases hs : s = []
    · rw [if_pos hs] at h; simp at h
    · rw [if_neg hs] at h
      rcases hm : h1At s with _ | cap' <;> rw [hm] at h
      · exact ih _ _ h
      · simp only [Option.some.injEq] at h
        subst h
        exact h1At_cap_ne_nil hm

theorem findH1_cap_ne_nil {s cap : List Char}
    (h : findH1 s = some cap) : cap ≠ [] :=
  findH1Fuel_cap_ne_nil s.length s cap h

theorem mk_ne_empty {l : List Char} (h : l ≠ []) : (⟨l⟩ : String) ≠ "" := by
  intro he
  apply h
  have : (⟨l⟩ : String).data = ("" : String).data := by rw [he]
  simpa using this

/-!
## Line decomposition of the heading scan (claim C5)

The lemmas below prove that on bodies without marker-only lines the global
regex scan coincides with the specification's line-by-line description.
-/

theorem length_takeWhile_le (p : Char → Bool) (t : List Char) :
    (t.takeWhile p).length ≤ t.length := by
  induction t with
  | nil => simp
  | cons a t ih =>
    rw [List.takeWhile_cons]
    split <;> simp <;> omega

theorem takeWhile_append_eq {p : Char → Bool} {x : Char} (hx : p x = false)
    (l t : List Char) : (l ++ x :: t).takeWhile p = l.takeWhile p := by
  induction l with
  | nil => simp [List.takeWhile_cons, hx]
  | cons a l ih =>
    simp only [List.cons_append, List.takeWhile_cons]
    split <;> simp [ih]

theorem takeWhile_append_of_not_all {p : Char → Bool} {l : List Char}
    (h : l.all p = false) (r : List Char) :
    (l ++ r).takeWhile p = l.takeWhile p := by
  induction l with
  | nil => simp at h
  | cons a l ih =>
    simp only [List.all_cons, Bool.and_eq_false_iff] at h
    simp only [List.cons_append, List.takeWhile_cons]
    rcases h with h | h
    · rw [h]
      simp
    · split
      · rw [ih h]
      · rfl

theorem dropWhile_append_of_all (p : Char → Bool) {l : List Char}
    (h : ∀ a ∈ l, p a = true) (r : List Char) :
    (l ++ r).dropWhile p = r.dropWhile p := by
  induction l with
  | nil => rfl
  | cons a l ih =>
    simp only [List.cons_append, List.dropWhile_cons]
    rw [if_pos (h a (List.mem_cons_self a l))]
    exact ih (fun b hb => h b (List.mem_cons_of_mem a hb))

theorem takeWhile_eq_self_of_all (p : Char → Bool) {l : List Char}
    (h : ∀ a ∈ l, p a = true) : l.takeWhile p = l := by
  induction l with
  | nil => rfl
  | cons a l ih =>
    rw [List.takeWhile_cons, if_pos (h a (List.mem_cons_self a l)),
      ih (fun b hb => h b (List.mem_cons_of_mem a hb))]

theorem dropWhile_eq_nil_of_all (p : Char → Bool) {l : List Char}
    (h : ∀ a ∈ l, p a = true) : l.dropWhile p = [] := by
  induction l with
  | nil => rfl
  | cons a l ih =>
    rw [List.dropWhile_cons, if_pos (h a (List.mem_cons_self a l))]
    exact ih (fun b hb => h b (List.mem_cons_of_mem a hb))

theorem length_takeWhile_lt_of_not_all {p : Char → Bool} {l : List Char}
    (h : l.all p = false) : (l.takeWhile p).length < l.length := by
  induction l with
  | nil => simp at h
  | cons a l ih =>
    simp only [List.all_cons, Bool.and_eq_false_iff] at h
    rw [List.takeWhile_cons]
    by_cases ha : p a = true
    · rw [if_pos ha]
      rcases h with h | h
      · rw [ha] at h; simp at h
      · have := ih h
        simp
        omega
    · rw [if_neg ha]
      simp

theorem drop_append_le {l : List Char} {n : Nat} (h : n ≤ l.length)
    (r : List Char) : (l ++ r).drop n = l.drop n ++ r := by
  induction l generalizing n with
  | nil =>
    simp at h
    subst h
    rfl
  | cons a l ih =>
    rcases n with _ | n
    · rfl
    · simp only [List.cons_append, List.drop_succ_cons]
      exact ih (by simpa using h)

theorem dropLine_no_newline {l : List Char} (h : '\n' ∉ l) : dropLine l = [] := by
  unfold dropLine
  rw [dropWhile_eq_nil_of_all (fun x => decide (x ≠ '\n'))
    (fun a ha => decide_eq_true (fun he => h (he ▸ ha)))]
  rfl

theorem dropLine_cons_newline (t : List Char) : dropLine ('\n' :: t) = t := by
  simp [dropLine, List.dropWhile_cons]

theorem dropLine_append {l t : List Char} (h : '\n' ∉ l) :
    dropLine (l ++ '\n' :: t) = t := by
  unfold dropLine
  rw [dropWhile_append_of_all (fun x => decide (x ≠ '\n'))
    (fun a ha => decide_eq_true (fun he => h (he ▸ ha)))]
  simp [List.dropWhile_cons]

theorem matchTail_append_line {u : List Char} (t : List Char)
    (hnl : '\n' ∉ u) (hnw : u.all jsWs = false) :
    matchTail (u ++ '\n' :: t) = matchTail u ∧
    ∀ cap used, matchTail u = some (cap, used) → used = u.length := by
  have htw : (u ++ '\n' :: t).takeWhile jsWs = u.takeWhile jsWs :=
    takeWhile_append_of_not_all hnw ('\n' :: t)
  have hwlt : (u.takeWhile jsWs).length < u.length :=
    length_takeWhile_lt_of_not_all hnw
  by_cases hw0 : (u.takeWhile jsWs).length = 0
  · constructor
    · unfold matchTail
      rw [htw, if_pos hw0, if_pos hw0]
    · intro cap used h
      unfold matchTail at h
      rw [if_pos hw0] at h
      simp at h
  · have hlen : ¬ (u ++ '\n' :: t).length ≤ (u.takeWhile jsWs).length := by
      simp only [List.length_append, List.length_cons]
      omega
    have hlenu : ¬ u.length ≤ (u.takeWhile jsWs).length := by omega
    have hnl' : '\n' ∉ u.drop (u.takeWhile jsWs).length :=
      fun hm => hnl (List.mem_of_mem_drop hm)
    have hcapu : (u.drop (u.takeWhile jsWs).length).takeWhile
        (fun x => decide (x ≠ '\n')) = u.drop (u.takeWhile jsWs).length :=
      takeWhile_eq_self_of_all (fun x => decide (x ≠ '\n'))
        (fun a ha => decide_eq_true (fun he => hnl' (he ▸ ha)))
    have hdropeq : (u ++ '\n' :: t).drop (u.takeWhile jsWs).length =
        u.drop (u.takeWhile jsWs).length ++ '\n' :: t :=
      drop_append_le (by omega) _
    have hcap : (u.drop (u.takeWhile jsWs).length ++ '\n' :: t).takeWhile
        (fun x => decide (x ≠ '\n')) = u.drop (u.takeWhile jsWs).length := by
      rw [takeWhile_append_eq (by simp), hcapu]
    constructor
    · unfold matchTail
      rw [htw, if_neg hw0, if_neg hw0, if_neg hlen, if_neg hlenu,
        hdropeq, hcap, hcapu]
    · intro cap used h
      unfold matchTail at h
      rw [if_neg hw0, if_neg hlenu, hcapu] at h
      simp only [Option.some.injEq, Prod.mk.injEq] at h
      rcases h with ⟨-, h2⟩
      rw [List.length_drop] at h2
      omega

theorem hashCount_append (l t : List Char) :
    hashCount (l ++ '\n' :: t) = hashCount l := by
  unfold hashCount
  rw [takeWhile_append_eq (by decide) l t]

theorem hashCount_le_length (l : List Char) : hashCount l ≤ l.length :=
  length_takeWhile_le _ l

theorem headingAt_append {l t : List Char} (hnl : '\n' ∉ l)
    (hmo : markerOnlyLine l = false) :
    headingAt (l ++ '\n' :: t) =
      (lineHeading l).map (fun hd => (hd, l.length)) := by
  unfold headingAt lineHeading
  rw [hashCount_append]
  by_cases hg : hashCount l = 2 ∨ hashCount l = 3
  · rw [if_pos hg, if_pos hg]
    have hnw : (l.drop (hashCount l)).all jsWs = false := by
      unfold markerOnlyLine at hmo
      rcases hg with h | h <;> rw [h] at hmo ⊢ <;> simpa using hmo
    have hnl' : '\n' ∉ l.drop (hashCount l) :=
      fun hm => hnl (List.mem_of_mem_drop hm)
    have hdr : (l ++ '\n' :: t).drop (hashCount l) =
        l.drop (hashCount l) ++ '\n' :: t :=
      drop_append_le (hashCount_le_length l) _
    rw [hdr, (matchTail_append_line t hnl' hnw).1]
    rcases hmt : matchTail (l.drop (hashCount l)) with _ | ⟨cap, used⟩ <;>
      simp only [hmt, Option.map_none', Option.map_some']
    have hused := (matchTail_append_line t hnl' hnw).2 cap used hmt
    rw [List.length_drop] at hused
    have h3 : hashCount l + used = l.length := by
      have := hashCount_le_length l
      omega
    rw [h3]
  · rw [if_neg hg, if_neg hg]
    rfl

theorem lineHeading_eq_headingAt (l : List Char) :
    lineHeading l = (headingAt l).map Prod.fst := by
  unfold lineHeading headingAt
  by_cases hg : hashCount l = 2 ∨ hashCount l = 3
  · rw [if_pos hg, if_pos hg]
    rcases hmt : matchTail (l.drop (hashCount l)) with _ | ⟨cap, used⟩ <;>
      simp [hmt]
  · rw [if_neg hg, if_neg hg]
    rfl

theorem lineHeading_some_level {l : List Char} {hd : RawHeading}
    (h : lineHeading l = some hd) : hd.level = 2 ∨ hd.level = 3 := by
  unfold lineHeading at h
  split at h
  · rename_i hg
    rcases hmt : matchTail (l.drop (hashCount l)) with _ | ⟨cap, used⟩ <;>
      rw [hmt] at h
    · simp at h
    · simp only [Option.map_some', Option.some.injEq] at h
      subst h
      exact hg
  · simp at h

theorem scan_single {l : List Char} (hnl : '\n' ∉ l) :
    scanHeadings l = (lineHeading l).toList := by
  rw [scanHeadings_eq]
  by_cases he : l = []
  · subst he
    simp [lineHeading, hashCount]
  · rw [if_neg he, lineHeading_eq_headingAt]
    rcases hha : headingAt l with _ | ⟨hd, used⟩ <;>
      simp only [hha, Option.map_none', Option.map_some']
    · rw [dropLine_no_newline hnl]
      rfl
    · have hnl' : '\n' ∉ l.drop used :=
        fun hm => hnl (List.mem_of_mem_drop hm)
      rw [dropLine_no_newline hnl']
      rfl

theorem scan_join :
    ∀ ls : List (List Char),
      (∀ l ∈ ls, '\n' ∉ l ∧ markerOnlyLine l = false) →
      scanHeadings (joinLines ls) = ls.filterMap lineHeading := by
  intro ls
  induction ls with
  | nil => intro _; rfl
  | cons l ls ih =>
    intro hH
    rcases ls with _ | ⟨l₂, ls'⟩
    · have h := hH l (List.mem_singleton.mpr rfl)
      show scanHeadings l = _
      rw [scan_single h.1]
      rcases hlh : lineHeading l with _ | hd <;>
        simp [List.filterMap_cons, hlh]
    · have hl := hH l (List.mem_cons_self l _)
      have hrest : ∀ x ∈ l₂ :: ls', '\n' ∉ x ∧ markerOnlyLine x = false :=
        fun x hx => hH x (List.mem_cons_of_mem l hx)
      have hjoin : joinLines (l :: l₂ :: ls') =
          l ++ '\n' :: joinLines (l₂ :: ls') := rfl
      rw [hjoin, scanHeadings_eq, if_neg (by simp),
        headingAt_append hl.1 hl.2]
      rcases hlh : lineHeading l with _ | hd <;>
        simp only [hlh, Option.map_none', Option.map_some']
      · rw [dropLine_append hl.1, ih hrest]
        simp only [List.filterMap_cons, hlh]
      · rw [show (l ++ '\n' :: joinLines (l₂ :: ls')).drop l.length =
            '\n' :: joinLines (l₂ :: ls') from by
          rw [drop_append_le (Nat.le_refl _), List.drop_length]
          rfl]
        rw [dropLine_cons_newline, ih hrest]
        simp only [List.filterMap_cons, hlh]

theorem linesOf_ne_nil : ∀ s : List Char, linesOf s ≠ [] := by
  intro s
  rcases s with _ | ⟨c, rest⟩
  · simp [linesOf]
  · by_cases hc : c = '\n'
    · subst hc
      simp [linesOf]
    · simp only [linesOf, if_neg hc]
      rcases linesOf rest with _ | ⟨p, ps⟩ <;> simp

theorem join_linesOf : ∀ s : List Char, joinLines (linesOf s) = s := by
  intro s
  induction s with
  | nil => rfl
  | cons c rest ih =>
    by_cases hc : c = '\n'
    · subst hc
      simp only [linesOf, if_pos rfl]
      rcases hL : linesOf rest with _ | ⟨p, ps⟩
      · exact absurd hL (linesOf_ne_nil rest)
      · rw [hL] at ih
        show [] ++ '\n' :: joinLines (p :: ps) = '\n' :: rest
        rw [List.nil_append, ih]
    · simp only [linesOf, if_neg hc]
      rcases hL : linesOf rest with _ | ⟨p, ps⟩
      · exact absurd hL (linesOf_ne_nil rest)
      · rw [hL] at ih
        rcases ps with _ | ⟨q, qs⟩
        · exact congrArg (c :: ·) ih
        · exact congrArg (c :: ·) ih

theorem no_newline_linesOf : ∀ s : List Char, ∀ l ∈ linesOf s, '\n' ∉ l := by
  intro s
  induction s with
  | nil =>
    intro l hl
    simp [linesOf] at hl
    subst hl
    simp
  | cons c rest ih =>
    intro l hl
    by_cases hc : c = '\n'
    · subst hc
      simp only [linesOf, if_pos rfl] at hl
      rcases List.mem_cons.mp hl with rfl | h
      · simp
      · exact ih l h
    · simp only [linesOf, if_neg hc] at hl
      rcases hL : linesOf rest with _ | ⟨p, ps⟩
      · exact absurd hL (linesOf_ne_nil rest)
      · rw [hL] at hl
        rcases List.mem_cons.mp hl with rfl | h
        · intro hm
          rcases List.mem_cons.mp hm with he | hp
          · exact hc he.symm
          · exact ih p (by rw [hL]; exact List.mem_cons_self p ps) hp
        · exact ih l (by rw [hL]; exact List.mem_cons_of_mem p h)

theorem filter_congr_of_mem {p q : α → Bool} :
    ∀ l : List α, (∀ x ∈ l, p x = q x) → l.filter p = l.filter q := by
  intro l
  induction l with
  | nil => intro _; rfl
  | cons a l ih =>
    intro h
    rw [List.filter_cons, List.filter_cons, h a (List.mem_cons_self a l),
      ih (fun x hx => h x (List.mem_cons_of_mem a hx))]

theorem length_filterMap_isSome (f : α → Option β) (l : List α) :
    (l.filterMap f).length = (l.filter (fun x => (f x).isSome)).length := by
  induction l with
  | nil => rfl
  | cons a l ih =>
    rcases hf : f a with _ | b <;>
      simp [List.filterMap_cons, List.filter_cons, hf, ih]

/-- On a line that is not marker-only, the per-line regex succeeds exactly
when the line begins with `##`/`###` followed by a whitespace character. -/
theorem lineHeading_isSome_eq {l : List Char} (hmo : markerOnlyLine l = false) :
    (lineHeading l).isSome = beginsHeadingMarker l := by
  unfold lineHeading beginsHeadingMarker
  by_cases hg : hashCount l = 2 ∨ hashCount l = 3
  · have hgb : (decide (hashCount l = 2) || decide (hashCount l = 3)) = true := by
      rcases hg with h | h <;> simp [h]
    have hall : (l.drop (hashCount l)).all jsWs = false := by
      unfold markerOnlyLine at hmo
      rw [hgb, Bool.true_and] at hmo
      exact hmo
    rw [if_pos hg, hgb, Bool.true_and]
    rcases hu : l.drop (hashCount l) with _ | ⟨c, t⟩
    · rw [hu] at hall
      simp at hall
    · rw [hu] at hall
      by_cases hc : jsWs c = true
      · have hw0 : ¬ ((c :: t).takeWhile jsWs).length = 0 := by
          rw [List.takeWhile_cons, if_pos hc]
          simp
        have hlt := length_takeWhile_lt_of_not_all hall
        unfold matchTail
        rw [if_neg hw0, if_neg (show ¬ (c :: t).length ≤
          ((c :: t).takeWhile jsWs).length by omega)]
        simp [hc]
      · have hb : jsWs c = false := by simpa using hc
        have hw0 : ((c :: t).takeWhile jsWs).length = 0 := by
          rw [List.takeWhile_cons, if_neg hc]
          rfl
        unfold matchTail
        rw [if_pos hw0]
        simp [hb]
  · have h2 : ¬ hashCount l = 2 := fun h => hg (Or.inl h)
    have h3 : ¬ hashCount l = 3 := fun h => hg (Or.inr h)
    rw [if_neg hg]
    simp [h2, h3]

/-!
## Claims
-/

set_option maxRecDepth 8000 in
/-- **C1** (code bug): the cross-component invariant "every Heading
Extractor id has a matching anchor id in the rendered HTML" fails.  The
extractor's regex scans raw body lines with no notion of fenced code
blocks, so for the body "```\n## Hidden\n```" it emits a heading with id
`"hidden"`, while the renderer (whose heading anchors `renderedHeadingIds`
models from §4.2) emits no heading element at all — the line is code.  The
repository's own `content/blog/memory-architecture-for-ai-agents.md`
contains such lines (e.g. `## 09:15 - Morning Startup` inside a fence), so
its table of contents links to anchors that do not exist. -/
theorem c1_extractor_vs_rendered_anchors :
    extractHeadings "```\n## Hidden\n```" = [⟨"hidden", "Hidden", 2⟩] ∧
    renderedHeadingIds "```\n## Hidden\n```" = [] := by
  constructor <;> decide

set_option maxRecDepth 8000 in
/-- **C2** (code bug): when no paragraph qualifies, the excerpt expression
evaluates `undefined + '...'`, i.e. the string `"undefined..."`, not the
empty string the dead `|| ''` fallback intended (second conjunct: the
documented 300-character truncation case does hold). -/
theorem c2_excerpt_fallback_is_undefined_string :
    excerptOf none "# Title Only" = "undefined..." ∧
    excerptOf none ⟨List.replicate 300 'a'⟩ =
      (⟨List.replicate 200 'a'⟩ : String) ++ "..." := by
  constructor <;> decide

/-- **C3** (confirmed): title resolution order — a truthy frontmatter
`title` wins; otherwise the capture of the first `/^#\s+(.+)$/m` match;
otherwise the slug; and for a non-empty slug the result is never empty
(the regex capture `(.+)` is necessarily non-empty). -/
theorem c3_title_resolution (fmTitle : Option String) (content slug : String) :
    (∀ t, fmTitle = some t → t ≠ "" → resolveTitle fmTitle content slug = t) ∧
    (fmTitle = none ∨ fmTitle = some "" →
      (∀ cap, findH1 content.toList = some cap →
        resolveTitle fmTitle content slug = ⟨cap⟩) ∧
      (findH1 content.toList = none →
        resolveTitle fmTitle content slug = slug)) ∧
    (slug ≠ "" → resolveTitle fmTitle content slug ≠ "") := by
  have hfb_cap : ∀ cap, findH1 content.toList = some cap →
      titleFallback content slug = ⟨cap⟩ := by
    intro cap hcap
    unfold titleFallback
    rw [hcap]
  have hfb_none : findH1 content.toList = none →
      titleFallback content slug = slug := by
    intro hnone
    unfold titleFallback
    rw [hnone]
  have hfb_ne : slug ≠ "" → titleFallback content slug ≠ "" := by
    intro hslug
    unfold titleFallback
    rcases hf : findH1 content.toList with _ | cap
    · exact hslug
    · exact mk_ne_empty (findH1_cap_ne_nil hf)
  have hfall : fmTitle = none ∨ fmTitle = some "" →
      resolveTitle fmTitle content slug = titleFallback content slug := by
    rintro (h | h) <;> subst h <;> simp [resolveTitle]
  refine ⟨?_, ?_, ?_⟩
  · intro t ht hne
    subst ht
    simp [resolveTitle, hne]
  · intro hfm
    exact ⟨fun cap hcap => (hfall hfm).trans (hfb_cap cap hcap),
      fun hnone => (hfall hfm).trans (hfb_none hnone)⟩
  · intro hslug
    rcases fmTitle with _ | t
    · rw [hfall (Or.inl rfl)]
      exact hfb_ne hslug
    · by_cases ht : t = ""
      · subst ht
        rw [hfall (Or.inr rfl)]
        exact hfb_ne hslug
      · simpa [resolveTitle, ht] using ht

/-- Witness for C3 at concrete inputs. -/
theorem c3_title_resolution_witness :
    ("my-slug" : String) ≠ "" ∧
    (none = (none : Option String) ∨ none = some "") ∧
    findH1 ("no heading here" : String).toList = none ∧
    resolveTitle none "no heading here" "my-slug" = "my-slug" ∧
    resolveTitle none "no heading here" "my-slug" ≠ "" := by
  have hnone : findH1 ("no heading here" : String).toList = none := by decide
  refine ⟨by decide, Or.inl rfl, hnone, ?_, ?_⟩
  · exact ((c3_title_resolution none "no heading here" "my-slug").2.1
      (Or.inl rfl)).2 hnone
  · exact (c3_title_resolution none "no heading here" "my-slug").2.2 (by decide)

/-- **C6** counterexample: a truthy non-list `tags` value (a YAML scalar
string) is passed through by `data.tags || []`, not defaulted to the empty
list as the claim states for malformed values. -/
theorem c6_tags_scalar_not_defaulted :
    resolveTags (.str "security") ≠ TagsVal.list [] ∧
    resolveTags (.str "security") = .str "security" :=
  ⟨by decide, rfl⟩

/-- **C6** as amended: a list value passes through verbatim; an absent key,
a YAML null (`tags:` with no value) and an empty string default to the
empty list; a truthy non-list value (e.g. a non-empty scalar string) is
passed through unchanged.  The resolution is total — it never raises. -/
theorem c6_tags_resolution (l : List String) (s : String) (hs : s ≠ "") :
    resolveTags (.list l) = .list l ∧
    resolveTags .missing = .list [] ∧
    resolveTags .null = .list [] ∧
    resolveTags (.str "") = .list [] ∧
    resolveTags (.str s) = .str s := by
  refine ⟨rfl, rfl, rfl, rfl, ?_⟩
  simp [resolveTags, hs]

/-- Witness for C6 at concrete inputs. -/
theorem c6_tags_resolution_witness :
    ("Security" : String) ≠ "" ∧
    resolveTags (.list ["Security", "API"]) = .list ["Security", "API"] ∧
    resolveTags .null = .list [] ∧
    resolveTags (.str "Security") = .str "Security" := by
  have h := c6_tags_resolution ["Security", "API"] "Security" (by decide)
  exact ⟨by decide, h.1, h.2.2.1, h.2.2.2.2⟩

/-- **C8** (confirmed): `getPostBySlug` yields an absent result exactly when
no file of the posts directory is named `slug + ".md"`; when such a file
exists the result is a present (non-null) Post.  The lookup is a total
function — no exception models are needed. -/
theorem c8_getPostBySlug_absent_iff (files : List MdFile) (slug : String) :
    (getPostBySlug files slug = none ↔
      ∀ f ∈ files, f.name ≠ slug ++ ".md") ∧
    ((∃ f ∈ files, f.name = slug ++ ".md") →
      ∃ p, getPostBySlug files slug = some p) := by
  constructor
  · constructor
    · intro h f hmem hname
      unfold getPostBySlug at h
      rcases hf : files.find? (fun f => f.name == slug ++ ".md") with _ | g
      · rw [List.find?_eq_none] at hf
        exact absurd hname (by simpa using hf f hmem)
      · rw [hf] at h
        simp at h
    · intro hall
      unfold getPostBySlug
      rcases hf : files.find? (fun f => f.name == slug ++ ".md") with _ | g
      · rw [hf]
      · have hg := List.find?_some hf
        have hgmem := List.mem_of_find?_eq_some hf
        simp only [beq_iff_eq] at hg
        exact absurd hg (hall g hgmem)
  · rintro ⟨f, hmem, hname⟩
    unfold getPostBySlug
    rcases hf : files.find? (fun f => f.name == slug ++ ".md") with _ | g
    · rw [List.find?_eq_none] at hf
      exact absurd hname (by simpa using hf f hmem)
    · rw [hf]
      exact ⟨_, rfl⟩

/-- Witness for C8 at a concrete directory. -/
theorem c8_getPostBySlug_witness :
    (∀ f ∈ ([⟨"hello.md", {}, "body"⟩] : List MdFile),
      f.name ≠ "missing" ++ ".md") ∧
    getPostBySlug [⟨"hello.md", {}, "body"⟩] "missing" = none ∧
    (∃ f ∈ ([⟨"hello.md", {}, "body"⟩] : List MdFile),
      f.name = "hello" ++ ".md") ∧
    (∃ p, getPostBySlug [⟨"hello.md", {}, "body"⟩] "hello" = some p) := by
  have hmem : (⟨"hello.md", {}, "body"⟩ : MdFile) ∈
      ([⟨"hello.md", {}, "body"⟩] : List MdFile) := List.mem_singleton.mpr rfl
  have hname : (⟨"hello.md", {}, "body"⟩ : MdFile).name = "hello" ++ ".md" := by
    decide
  refine ⟨by decide, ?_, ⟨⟨"hello.md", {}, "body"⟩, hmem, hname⟩, ?_⟩
  · exact (c8_getPostBySlug_absent_iff [⟨"hello.md", {}, "body"⟩]
      "missing").1.mpr (by decide)
  · exact (c8_getPostBySlug_absent_iff [⟨"hello.md", {}, "body"⟩] "hello").2
      ⟨⟨"hello.md", {}, "body"⟩, hmem, hname⟩

/-- **C9** (confirmed): the homepage entry has priority 1 and weekly change
frequency; the blog index entry has priority 9/10; every per-post entry has
priority 7/10 (inside the 0.7–0.8 range), monthly change frequency, and
`lastModified` equal to the post's published date when that is truthy and
the generation time otherwise; so homepage > blog index > every post. -/
theorem c9_sitemap_entries (posts : List PostMeta) :
    (sitemapOf posts).head? =
      some ⟨baseUrl, .generationTime, .weekly, 1⟩ ∧
    (sitemapOf posts)[1]? =
      some ⟨baseUrl ++ "/blog", .generationTime, .daily, 9/10⟩ ∧
    (∀ e ∈ (sitemapOf posts).drop 2,
      e.priority = 7/10 ∧ (7 : ℚ)/10 ≤ e.priority ∧ e.priority ≤ 8/10 ∧
      e.changeFrequency = .monthly ∧ e.priority < 9/10 ∧ (9 : ℚ)/10 < 1) ∧
    (∀ p ∈ posts, ∃ e ∈ (sitemapOf posts).drop 2,
      e.url = baseUrl ++ "/blog/" ++ p.slug ∧
      (∀ s, p.published = some s → s ≠ "" →
        e.lastModified = .fromString s) ∧
      ((p.published = none ∨ p.published = some "") →
        e.lastModified = .generationTime)) := by
  have hdrop : (sitemapOf posts).drop 2 = posts.map fun post =>
      ({ url := baseUrl ++ "/blog/" ++ post.slug
         lastModified :=
           match post.published with
           | some p => if p = "" then .generationTime else .fromString p
           | none => .generationTime
         changeFrequency := .monthly
         priority := 7 / 10 } : SitemapEntry) := by
    simp [sitemapOf]
  refine ⟨by simp [sitemapOf], by simp [sitemapOf], ?_, ?_⟩
  · intro e he
    rw [hdrop] at he
    obtain ⟨p, -, rfl⟩ := List.mem_map.mp he
    refine ⟨rfl, by norm_num, by norm_num, rfl, by norm_num, by norm_num⟩
  · intro p hp
    refine ⟨_, by rw [hdrop]; exact List.mem_map_of_mem _ hp, rfl, ?_, ?_⟩
    · intro s hs hne
      simp only [hs, hne]
      simp [hne]
    · rintro (h | h) <;> simp [h]

/-- Witness for C9 at a concrete collection. -/
theorem c9_sitemap_entries_witness :
    (sitemapOf [⟨"post", "t", none, some "2026-02-07", "1 min read",
        .list [], "e"⟩]).head? =
      some ⟨baseUrl, .generationTime, .weekly, 1⟩ ∧
    (∃ e ∈ (sitemapOf [⟨"post", "t", none, some "2026-02-07", "1 min read",
        .list [], "e"⟩]).drop 2,
      e.url = baseUrl ++ "/blog/" ++ "post" ∧
      e.lastModified = .fromString "2026-02-07") := by
  have h := c9_sitemap_entries [⟨"post", "t", none, some "2026-02-07",
    "1 min read", .list [], "e"⟩]
  refine ⟨h.1, ?_⟩
  obtain ⟨e, hmem, hurl, hlm, -⟩ := h.2.2.2 _ (List.mem_singleton.mpr rfl)
  exact ⟨e, hmem, hurl, hlm "2026-02-07" rfl (by decide)⟩

theorem childrenOk_append (l r : List HNode) :
    childrenOk (l ++ r) = (childrenOk l && childrenOk r) := by
  induction l with
  | nil => simp [childrenOk]
  | cons n ns ih =>
    simp only [List.cons_append, childrenOk, List.append_eq]
    rw [ih, Bool.and_assoc]

theorem all_filter_self (p : α → Bool) (l : List α) :
    (l.filter p).all p = true := by
  rw [List.all_eq_true]
  intro x hx
  exact (List.mem_filter.mp hx).2

mutual
theorem nodeOk_sanitize (n : HNode) : childrenOk (sanitizeNode n) = true := by
  cases n with
  | text s => simp [sanitizeNode, childrenOk, nodeOk]
  | element tag attrs children =>
    rw [sanitizeNode]
    by_cases h1 : tag ∈ allowedTags
    · rw [if_pos h1]
      have hca := listOk_sanitize children
      simp [childrenOk, nodeOk, h1, hca, all_filter_self]
    · by_cases h2 : tag ∈ stripTags
      · simp [h1, h2, childrenOk]
      · rw [if_neg h1, if_neg h2]
        exact listOk_sanitize children

theorem listOk_sanitize (ns : List HNode) :
    childrenOk (sanitizeChildren ns) = true := by
  cases ns with
  | nil => rfl
  | cons n ns =>
    rw [sanitizeChildren, childrenOk_append, nodeOk_sanitize n,
      listOk_sanitize ns]
    rfl
end

set_option maxRecDepth 4000 in
/-- **C7** (code bug): the configured schema does not remove `input`.
`sanitizeSchema.tagNames` spreads `defaultSchema.tagNames` (blog.ts line
18), which allow-lists `input` for GFM task-list checkboxes, and the
engine's `strip` applies only to elements whose tag is NOT allow-listed —
so although `input` appears in the strip list (line 49, "explicitly
disallow dangerous tags"), a checkbox `<input type="checkbox" disabled>`
passes through the sanitizer verbatim, refuting the claim's "no input
element".  The rest of the claim holds and is proved here too: the
sanitized output of any tree satisfies `childrenOk` (every element's tag is
allow-listed with admitted, protocol-checked attributes); `script`,
`style`, `iframe`, `object`, `embed`, `form` and `textarea` are outside
the configured allow-list, so no such element survives; and `href`/`src`
are restricted to http/https/mailto and http/https/data. -/
theorem c7_sanitizer_policy_divergence :
    sanitizeChildren
        [.element "input" [("type", "checkbox"), ("disabled", "true")] []] =
      [.element "input" [("type", "checkbox"), ("disabled", "true")] []] ∧
    "input" ∈ stripTags ∧
    "input" ∈ allowedTags ∧
    (∀ n : HNode, childrenOk (sanitizeNode n) = true) ∧
    (∀ t ∈ (["script", "style", "iframe", "object", "embed", "form",
        "textarea"] : List String), t ∉ allowedTags) ∧
    allowedProtocols "href" = ["http", "https", "mailto"] ∧
    allowedProtocols "src" = ["http", "https", "data"] :=
  ⟨by rfl, by decide, by decide, fun n => nodeOk_sanitize n,
    by decide, rfl, rfl⟩

/-!
## Sorting lemmas for claim C4
-/

/-- JavaScript truthiness of the `published` field. -/
def truthyPub (p : PostMeta) : Bool :=
  match p.published with
  | some s => !(s == "")
  | none => false

/-- The timestamp the comparator would use for a post: present exactly when
`published` is truthy and parses as a date. -/
def pubTime (p : PostMeta) : Option Int :=
  match p.published with
  | some s => if s = "" then none else jsDateTime s
  | none => none

/-- The same timestamp computed from the frontmatter record. -/
def fmPubTime (data : FrontMatter) : Option Int :=
  match data.published with
  | some s => if s = "" then none else jsDateTime s
  | none => none

theorem pubTime_buildPostMeta (slug : String) (data : FrontMatter)
    (content : String) :
    pubTime (buildPostMeta slug data content) = fmPubTime data := rfl

theorem comparePosts_antisymm (a b : PostMeta) :
    comparePosts b a = -comparePosts a b := by
  rcases hpa : a.published with _ | pa <;> rcases hpb : b.published with _ | pb <;>
      simp only [comparePosts, hpa, hpb] <;> try simp
  by_cases hea : pa = ""
  · simp [hea]
  · by_cases heb : pb = ""
    · simp [heb]
    · rw [if_neg (by simp [hea, heb] : ¬(pa = "" ∨ pb = "")),
        if_neg (by simp [hea, heb] : ¬(pb = "" ∨ pa = ""))]
      rcases jsDateTime pa with _ | ta <;> rcases jsDateTime pb with _ | tb <;>
        simp <;> omega

theorem comparePosts_of_dated {a b : PostMeta} {ta tb : Int}
    (ha : pubTime a = some ta) (hb : pubTime b = some tb) :
    comparePosts a b = tb - ta := by
  rcases hpa : a.published with _ | pa
  · simp [pubTime, hpa] at ha
  · rcases hpb : b.published with _ | pb
    · simp [pubTime, hpb] at hb
    · simp only [pubTime, hpa] at ha
      simp only [pubTime, hpb] at hb
      by_cases hea : pa = ""
      · simp [hea] at ha
      · by_cases heb : pb = ""
        · simp [heb] at hb
        · rw [if_neg hea] at ha
          rw [if_neg heb] at hb
          simp only [comparePosts, hpa, hpb,
            if_neg (by simp [hea, heb] : ¬(pa = "" ∨ pb = "")), ha, hb]

theorem mem_mergeLe (le : α → α → Bool) :
    ∀ l₁ l₂ (a : α), a ∈ mergeLe le l₁ l₂ ↔ a ∈ l₁ ∨ a ∈ l₂ := by
  intro l₁
  induction l₁ with
  | nil => intro l₂ a; rw [mergeLe_nil_left]; simp
  | cons x l₁ ihx =>
    intro l₂
    induction l₂ with
    | nil => intro a; rw [mergeLe_nil_right]; simp
    | cons y l₂ ihy =>
      intro a
      rw [mergeLe_cons_cons]
      split
      · simp only [List.mem_cons, ihx (y :: l₂) a, List.mem_cons]
        tauto
      · simp only [List.mem_cons, ihy a, List.mem_cons]
        tauto

theorem pairwise_mergeLe (le : α → α → Bool) :
    ∀ l₁ l₂,
      (∀ a, (a ∈ l₁ ∨ a ∈ l₂) → ∀ b, (b ∈ l₁ ∨ b ∈ l₂) →
        le a b = true ∨ le b a = true) →
      (∀ a, (a ∈ l₁ ∨ a ∈ l₂) → ∀ b, (b ∈ l₁ ∨ b ∈ l₂) →
        ∀ c, (c ∈ l₁ ∨ c ∈ l₂) →
        le a b = true → le b c = true → le a c = true) →
      l₁.Pairwise (fun a b => le a b = true) →
      l₂.Pairwise (fun a b => le a b = true) →
      (mergeLe le l₁ l₂).Pairwise (fun a b => le a b = true) := by
  intro l₁
  induction l₁ with
  | nil => intro l₂ _ _ _ h₂; rw [mergeLe_nil_left]; exact h₂
  | cons x l₁ ihx =>
    intro l₂
    induction l₂ with
    | nil => intro _ _ h₁ _; rw [mergeLe_nil_right]; exact h₁
    | cons y l₂ ihy =>
      intro htot htr h₁ h₂
      rw [mergeLe_cons_cons]
      rcases List.pairwise_cons.mp h₁ with ⟨hx, h₁'⟩
      rcases List.pairwise_cons.mp h₂ with ⟨hy, h₂'⟩
      split
      · rename_i hxy
        rw [List.pairwise_cons]
        constructor
        · intro z hz
          rcases (mem_mergeLe le l₁ (y :: l₂) z).mp hz with hz₁ | hz₂
          · exact hx z hz₁
          · rcases List.mem_cons.mp hz₂ with rfl | hz₂'
            · exact hxy
            · exact htr x (Or.inl (List.mem_cons_self x l₁)) y
                (Or.inr (List.mem_cons_self y l₂)) z
                (Or.inr (List.mem_cons_of_mem y hz₂')) hxy (hy z hz₂')
        · exact ihx (y :: l₂)
            (fun a ha b hb => htot a
              (ha.imp (List.mem_cons_of_mem x) id)
              b (hb.imp (List.mem_cons_of_mem x) id))
            (fun a ha b hb c hc => htr a
              (ha.imp (List.mem_cons_of_mem x) id)
              b (hb.imp (List.mem_cons_of_mem x) id)
              c (hc.imp (List.mem_cons_of_mem x) id))
            h₁' h₂
      · rename_i hxy
        have hyx : le y x = true := by
          rcases htot x (Or.inl (List.mem_cons_self x l₁)) y
            (Or.inr (List.mem_cons_self y l₂)) with h | h
          · exact absurd h hxy
          · exact h
        rw [List.pairwise_cons]
        constructor
        · intro z hz
          rcases (mem_mergeLe le (x :: l₁) l₂ z).mp hz with hz₁ | hz₂
          · rcases List.mem_cons.mp hz₁ with rfl | hz₁'
            · exact hyx
            · exact htr y (Or.inr (List.mem_cons_self y l₂)) x
                (Or.inl (List.mem_cons_self x l₁)) z
                (Or.inl (List.mem_cons_of_mem x hz₁')) hyx (hx z hz₁')
          · exact hy z hz₂
        · exact ihy
            (fun a ha b hb => htot a
              (ha.imp id (List.mem_cons_of_mem y))
              b (hb.imp id (List.mem_cons_of_mem y)))
            (fun a ha b hb c hc => htr a
              (ha.imp id (List.mem_cons_of_mem y))
              b (hb.imp id (List.mem_cons_of_mem y))
              c (hc.imp id (List.mem_cons_of_mem y)))
            h₁ h₂'

theorem mem_mergeSortBy (le : α → α → Bool) :
    ∀ (l : List α) (a : α), a ∈ mergeSortBy le l ↔ a ∈ l := by
  have H : ∀ n (l : List α), l.length ≤ n → ∀ a,
      (a ∈ mergeSortBy le l ↔ a ∈ l) := by
    intro n
    induction n with
    | zero =>
      intro l hl a
      have : l = [] := List.length_eq_zero.mp (by omega)
      subst this
      rw [mergeSortBy_eq]
      simp
    | succ n ih =>
      intro l hl a
      rw [mergeSortBy_eq]
      by_cases h1 : l.length ≤ 1
      · rw [if_pos h1]
      · rw [if_neg h1]
        have h2 : 2 ≤ l.length := by omega
        have hlt : (l.take (l.length / 2)).length ≤ n := by
          simp only [List.length_take]; omega
        have hld : (l.drop (l.length / 2)).length ≤ n := by
          simp only [List.length_drop]; omega
        rw [mem_mergeLe, ih (l.take (l.length / 2)) hlt a,
          ih (l.drop (l.length / 2)) hld a,
          ← List.mem_append, List.take_append_drop]
  exact fun l a => H l.length l (Nat.le_refl _) a

theorem pairwise_mergeSortBy (le : α → α → Bool) :
    ∀ (l : List α),
      (∀ a ∈ l, ∀ b ∈ l, le a b = true ∨ le b a = true) →
      (∀ a ∈ l, ∀ b ∈ l, ∀ c ∈ l,
        le a b = true → le b c = true → le a c = true) →
      (mergeSortBy le l).Pairwise (fun a b => le a b = true) := by
  have H : ∀ n (l : List α), l.length ≤ n →
      (∀ a ∈ l, ∀ b ∈ l, le a b = true ∨ le b a = true) →
      (∀ a ∈ l, ∀ b ∈ l, ∀ c ∈ l,
        le a b = true → le b c = true → le a c = true) →
      (mergeSortBy le l).Pairwise (fun a b => le a b = true) := by
    intro n
    induction n with
    | zero =>
      intro l hl _ _
      have : l = [] := List.length_eq_zero.mp (by omega)
      subst this
      rw [mergeSortBy_eq]
      simp
    | succ n ih =>
      intro l hl htot htr
      rw [mergeSortBy_eq]
      by_cases h1 : l.length ≤ 1
      · rw [if_pos h1]
        rcases l with _ | ⟨a, l⟩
        · exact List.Pairwise.nil
        · rcases l with _ | ⟨b, l⟩
          · simp
          · simp at h1
      · rw [if_neg h1]
        have h2 : 2 ≤ l.length := by omega
        have hlt : (l.take (l.length / 2)).length ≤ n := by
          simp only [List.length_take]; omega
        have hld : (l.drop (l.length / 2)).length ≤ n := by
          simp only [List.length_drop]; omega
        have hmt : ∀ a, a ∈ l.take (l.length / 2) → a ∈ l :=
          fun a ha => List.mem_of_mem_take ha
        have hmd : ∀ a, a ∈ l.drop (l.length / 2) → a ∈ l :=
          fun a ha => List.mem_of_mem_drop ha
        apply pairwise_mergeLe
        · intro a ha b hb
          have ha' : a ∈ l := by
            rcases ha with h | h
            · exact hmt a ((mem_mergeSortBy le _ a).mp h)
            · exact hmd a ((mem_mergeSortBy le _ a).mp h)
          have hb' : b ∈ l := by
            rcases hb with h | h
            · exact hmt b ((mem_mergeSortBy le _ b).mp h)
            · exact hmd b ((mem_mergeSortBy le _ b).mp h)
          exact htot a ha' b hb'
        · intro a ha b hb c hc
          have ha' : a ∈ l := by
            rcases ha with h | h
            · exact hmt a ((mem_mergeSortBy le _ a).mp h)
            · exact hmd a ((mem_mergeSortBy le _ a).mp h)
          have hb' : b ∈ l := by
            rcases hb with h | h
            · exact hmt b ((mem_mergeSortBy le _ b).mp h)
            · exact hmd b ((mem_mergeSortBy le _ b).mp h)
          have hc' : c ∈ l := by
            rcases hc with h | h
            · exact hmt c ((mem_mergeSortBy le _ c).mp h)
            · exact hmd c ((mem_mergeSortBy le _ c).mp h)
          exact htr a ha' b hb' c hc'
        · exact ih (l.take (l.length / 2)) hlt
            (fun a ha b hb => htot a (hmt a ha) b (hmt b hb))
            (fun a ha b hb c hc =>
              htr a (hmt a ha) b (hmt b hb) c (hmt c hc))
        · exact ih (l.drop (l.length / 2)) hld
            (fun a ha b hb => htot a (hmd a ha) b (hmd b hb))
            (fun a ha b hb c hc =>
              htr a (hmd a ha) b (hmd b hb) c (hmd c hc))
  exact fun l => H l.length l (Nat.le_refl _)

theorem filter_mergeLe (le : α → α → Bool) (P : α → Bool)
    (hP₁ : ∀ u, P u = true → ∀ x, le u x = true)
    (hP₂ : ∀ x u, P u = true → le x u = true) :
    ∀ l₁ l₂, (mergeLe le l₁ l₂).filter P = l₁.filter P ++ l₂.filter P := by
  intro l₁
  induction l₁ with
  | nil => intro l₂; rw [mergeLe_nil_left]; simp
  | cons x l₁ ihx =>
    intro l₂
    induction l₂ with
    | nil => rw [mergeLe_nil_right]; simp
    | cons y l₂ ihy =>
      rw [mergeLe_cons_cons]
      split
      · rename_i hxy
        rw [List.filter_cons, List.filter_cons]
        by_cases hPx : P x = true
        · rw [if_pos hPx, if_pos hPx, ihx (y :: l₂)]
          rfl
        · rw [if_neg hPx, if_neg hPx, ihx (y :: l₂)]
      · rename_i hxy
        have hPy : P y = false := by
          by_cases h : P y = true
          · exact absurd (hP₂ x y h) hxy
          · simpa using h
        rw [show (y :: mergeLe le (x :: l₁) l₂).filter P =
            (mergeLe le (x :: l₁) l₂).filter P by
          simp [List.filter_cons, hPy]]
        rw [show (y :: l₂).filter P = l₂.filter P by
          simp [List.filter_cons, hPy]]
        exact ihy

theorem filter_mergeSortBy (le : α → α → Bool) (P : α → Bool)
    (hP₁ : ∀ u, P u = true → ∀ x, le u x = true)
    (hP₂ : ∀ x u, P u = true → le x u = true) :
    ∀ l : List α, (mergeSortBy le l).filter P = l.filter P := by
  have H : ∀ n (l : List α), l.length ≤ n →
      (mergeSortBy le l).filter P = l.filter P := by
    intro n
    induction n with
    | zero =>
      intro l hl
      have : l = [] := List.length_eq_zero.mp (by omega)
      subst this
      rw [mergeSortBy_eq]
      simp
    | succ n ih =>
      intro l hl
      rw [mergeSortBy_eq]
      by_cases h1 : l.length ≤ 1
      · rw [if_pos h1]
      · rw [if_neg h1]
        have h2 : 2 ≤ l.length := by omega
        have hlt : (l.take (l.length / 2)).length ≤ n := by
          simp only [List.length_take]; omega
        have hld : (l.drop (l.length / 2)).length ≤ n := by
          simp only [List.length_drop]; omega
        rw [filter_mergeLe le P hP₁ hP₂,
          ih (l.take (l.length / 2)) hlt,
          ih (l.drop (l.length / 2)) hld,
          ← List.filter_append, List.take_append_drop]
  exact fun l => H l.length l (Nat.le_refl _)

theorem pairwise_imp_of_mem {R S : α → α → Prop} {l : List α}
    (H : ∀ a b, a ∈ l → b ∈ l → R a b → S a b) (h : l.Pairwise R) :
    l.Pairwise S := by
  induction l with
  | nil => exact .nil
  | cons x l ih =>
    rcases List.pairwise_cons.mp h with ⟨hx, h'⟩
    refine List.pairwise_cons.mpr ⟨?_, ?_⟩
    · exact fun y hy => H x y (List.mem_cons_self x l)
        (List.mem_cons_of_mem x hy) (hx y hy)
    · exact ih (fun a b ha hb => H a b (List.mem_cons_of_mem x ha)
        (List.mem_cons_of_mem x hb)) h'

theorem comparePosts_zero_of_untruthy_left {a : PostMeta}
    (h : truthyPub a = false) (b : PostMeta) : comparePosts a b = 0 := by
  rcases hpa : a.published with _ | pa
  · rcases b.published with _ | pb <;> simp [comparePosts, hpa]
  · simp only [truthyPub, hpa, Bool.not_eq_false'] at h
    have : pa = "" := by simpa using h
    subst this
    rcases hpb : b.published with _ | pb <;> simp [comparePosts, hpa, hpb]

theorem comparePosts_zero_of_untruthy_right {b : PostMeta}
    (h : truthyPub b = false) (a : PostMeta) : comparePosts a b = 0 := by
  have h1 := comparePosts_antisymm a b
  have h2 := comparePosts_zero_of_untruthy_left h a
  omega

set_option maxRecDepth 10000 in
/-- **C4** counterexample: with an undated post enumerated between two dated
ones, the comparator ties the undated post against both neighbours, the
stable sort compares nothing else, and the two dated posts stay in
enumeration order — the post published 2026-03-01 ends up after the one
published 2026-02-01, so "for every pair of posts that both have a
published date, the one with the later date comes first" is false. -/
theorem c4_mixed_collection_not_sorted :
    (getAllPosts [⟨"c.md", { published := some "2026-02-01" }, "C"⟩,
        ⟨"b.md", {}, "B"⟩,
        ⟨"a.md", { published := some "2026-03-01" }, "A"⟩]).map
      (fun p => (p.slug, p.published)) =
      [("c", some "2026-02-01"), ("b", none), ("a", some "2026-03-01")] ∧
    jsDateTime "2026-02-01" = some 1769904000000 ∧
    jsDateTime "2026-03-01" = some 1772323200000 ∧
    (1769904000000 : Int) < 1772323200000 := by
  refine ⟨by decide, by decide, by decide, by decide⟩

set_option maxRecDepth 10000 in
/-- **C4** as amended: (i) when every post of the collection has a truthy,
parseable published date, the Collection is sorted descending by that date;
(ii) posts whose `published` is not truthy keep their relative enumeration
order unconditionally (stable sort, ties everywhere); (iii) the three-post
example sorts as the claim says. -/
theorem c4_collection_sort_amended :
    (∀ files : List MdFile,
      (∀ f ∈ files, (fmPubTime f.data).isSome) →
      (getAllPosts files).Pairwise
        (fun a b => ∀ ta tb, pubTime a = some ta → pubTime b = some tb →
          tb ≤ ta)) ∧
    (∀ files : List MdFile,
      (getAllPosts files).filter (fun p => !truthyPub p) =
        ((files.filter (fun f => strEndsWith f.name ".md")).map
          (fun f => buildPostMeta (stripMdExt f.name) f.data f.content)).filter
          (fun p => !truthyPub p)) ∧
    (getAllPosts [⟨"p1.md", { published := some "2026-02-01" }, "x"⟩,
        ⟨"p2.md", { published := some "2026-02-07" }, "x"⟩,
        ⟨"p3.md", { published := some "2026-01-15" }, "x"⟩]).map
      (fun p => p.published) =
      [some "2026-02-07", some "2026-02-01", some "2026-01-15"] := by
  refine ⟨?_, ?_, by decide⟩
  · intro files hdated
    unfold getAllPosts jsSortBy
    set L := (files.filter (fun f => strEndsWith f.name ".md")).map
      (fun f => buildPostMeta (stripMdExt f.name) f.data f.content) with hL
    have hdL : ∀ p ∈ L, (pubTime p).isSome := by
      intro p hp
      rw [hL] at hp
      obtain ⟨f, hf, rfl⟩ := List.mem_map.mp hp
      rw [pubTime_buildPostMeta]
      exact hdated f (List.mem_of_mem_filter hf)
    have hpw := pairwise_mergeSortBy
      (fun a b => decide (comparePosts a b ≤ 0)) L
      (fun a _ b _ => by
        rcases le_or_lt (comparePosts a b) 0 with h | h
        · exact Or.inl (decide_eq_true h)
        · refine Or.inr (decide_eq_true ?_)
          have := comparePosts_antisymm a b
          omega)
      (fun a ha b hb c hc hab hbc => by
        obtain ⟨ta, hta⟩ := Option.isSome_iff_exists.mp (hdL a ha)
        obtain ⟨tb, htb⟩ := Option.isSome_iff_exists.mp (hdL b hb)
        obtain ⟨tc, htc⟩ := Option.isSome_iff_exists.mp (hdL c hc)
        have h1 := of_decide_eq_true hab
        have h2 := of_decide_eq_true hbc
        rw [comparePosts_of_dated hta htb] at h1
        rw [comparePosts_of_dated htb htc] at h2
        refine decide_eq_true ?_
        rw [comparePosts_of_dated hta htc]
        omega)
    refine pairwise_imp_of_mem ?_ hpw
    intro a b ha hb hab ta tb hta htb
    have h1 := of_decide_eq_true hab
    rw [comparePosts_of_dated hta htb] at h1
    omega
  · intro files
    unfold getAllPosts jsSortBy
    apply filter_mergeSortBy
    · intro u hu x
      refine decide_eq_true ?_
      rw [comparePosts_zero_of_untruthy_left (by simpa using hu) x]
    · intro x u hu
      refine decide_eq_true ?_
      rw [comparePosts_zero_of_untruthy_right (by simpa using hu) x]

set_option maxRecDepth 10000 in
/-- Witness for C4 as amended, at concrete collections. -/
theorem c4_collection_sort_amended_witness :
    (∀ f ∈ ([⟨"p1.md", { published := some "2026-02-01" }, "x"⟩,
        ⟨"p2.md", { published := some "2026-02-07" }, "x"⟩] : List MdFile),
      (fmPubTime f.data).isSome) ∧
    (getAllPosts [⟨"p1.md", { published := some "2026-02-01" }, "x"⟩,
        ⟨"p2.md", { published := some "2026-02-07" }, "x"⟩]).Pairwise
      (fun a b => ∀ ta tb, pubTime a = some ta → pubTime b = some tb →
        tb ≤ ta) ∧
    (getAllPosts [⟨"c.md", { published := some "2026-02-01" }, "C"⟩,
        ⟨"b.md", {}, "B"⟩]).filter (fun p => !truthyPub p) =
      ((([⟨"c.md", { published := some "2026-02-01" }, "C"⟩,
        ⟨"b.md", {}, "B"⟩] : List MdFile).filter
          (fun f => strEndsWith f.name ".md")).map
        (fun f => buildPostMeta (stripMdExt f.name) f.data f.content)).filter
        (fun p => !truthyPub p) :=
  ⟨by decide,
    c4_collection_sort_amended.1 _ (by decide),
    c4_collection_sort_amended.2.1 _⟩

set_option maxRecDepth 8000 in
/-- **C5** counterexample: the extractor is not per-line.  The body
"##\nfoo" has no line beginning with `##`/`###` followed by whitespace
(its lines are "##" and "foo"), yet the extractor produces one heading:
the regex's `\s+` matches the newline itself, so the marker-only line
"##" steals the following line as its text. -/
theorem c5_counterexample :
    ((linesOf ("##\nfoo" : String).toList).filter beginsHeadingMarker).length
      = 0 ∧
    extractHeadings "##\nfoo" = [⟨"foo", "foo", 2⟩] := by
  decide

/-- **C5** (corrected): provided no body line is a `##`/`###` marker
followed only by whitespace, the extractor is exactly per-line: it emits,
in document order, one heading per line on which the single-line regex
succeeds; the number of headings equals the number of lines beginning with
exactly `##` or `###` followed by a whitespace character; every heading has
level 2 or 3; and there is no deduplication by construction — any two
headings with equal texts get equal ids. -/
theorem c5_heading_extractor_per_line (body : String)
    (H : ∀ l ∈ linesOf body.toList, markerOnlyLine l = false) :
    extractHeadings body =
      ((linesOf body.toList).filterMap lineHeading).map
        (fun h => ⟨⟨headingIdChars h.text⟩, ⟨h.text⟩, h.level⟩) ∧
    (extractHeadings body).length =
      ((linesOf body.toList).filter beginsHeadingMarker).length ∧
    (∀ h ∈ extractHeadings body, h.level = 2 ∨ h.level = 3) ∧
    (∀ h₁ ∈ extractHeadings body, ∀ h₂ ∈ extractHeadings body,
      h₁.text = h₂.text → h₁.id = h₂.id) := by
  have hcorr : scanHeadings body.toList =
      (linesOf body.toList).filterMap lineHeading := by
    have h := scan_join (linesOf body.toList)
      (fun l hl => ⟨no_newline_linesOf body.toList l hl, H l hl⟩)
    rwa [join_linesOf] at h
  have h1 : extractHeadings body =
      ((linesOf body.toList).filterMap lineHeading).map
        (fun h => ⟨⟨headingIdChars h.text⟩, ⟨h.text⟩, h.level⟩) := by
    unfold extractHeadings
    rw [hcorr]
  refine ⟨h1, ?_, ?_, ?_⟩
  · have hfc : (linesOf body.toList).filter
        (fun x => (lineHeading x).isSome) =
        (linesOf body.toList).filter beginsHeadingMarker :=
      filter_congr_of_mem _ (fun l hl => lineHeading_isSome_eq (H l hl))
    rw [h1, List.length_map, length_filterMap_isSome, hfc]
  · intro h hm
    rw [h1] at hm
    rcases List.mem_map.mp hm with ⟨rh, hrh, rfl⟩
    rcases List.mem_filterMap.mp hrh with ⟨l, _, hlh⟩
    exact lineHeading_some_level hlh
  · intro h₁ hm₁ h₂ hm₂ htext
    rw [h1] at hm₁ hm₂
    rcases List.mem_map.mp hm₁ with ⟨r₁, _, rfl⟩
    rcases List.mem_map.mp hm₂ with ⟨r₂, _, rfl⟩
    have he : r₁.text = r₂.text := congrArg String.data htext
    show String.mk (headingIdChars r₁.text) = String.mk (headingIdChars r₂.text)
    rw [he]

set_option maxRecDepth 8000 in
/-- Witness for C5 as amended: a body with two identical `##` headings and
no marker-only line yields two headings sharing the id "alpha". -/
theorem c5_heading_extractor_per_line_witness :
    (∀ l ∈ linesOf ("## Alpha\ntext\n## Alpha" : String).toList,
      markerOnlyLine l = false) ∧
    extractHeadings "## Alpha\ntext\n## Alpha" =
      [⟨"alpha", "Alpha", 2⟩, ⟨"alpha", "Alpha", 2⟩] := by
  refine ⟨by decide, ?_⟩
  rw [(c5_heading_extractor_per_line "## Alpha\ntext\n## Alpha" (by decide)).1]
  decide

/-- **C10** (confirmed): `readingTime` is computed from the body text alone
(the reading-time estimate is deterministic in the body); the frontmatter
`readingTime` key — present in the real documents — is never consulted, so
any two documents with identical bodies receive identical strings, in both
the listing and the detail builders. -/
theorem c10_readingTime_ignores_frontmatter (slug₁ slug₂ : String)
    (d₁ d₂ : FrontMatter) (body : String) :
    (buildPostMeta slug₁ d₁ body).readingTime =
      (buildPostMeta slug₂ d₂ body).readingTime ∧
    (buildPostFull slug₁ d₁ body).readingTime =
      (buildPostMeta slug₂ d₂ body).readingTime ∧
    (buildPostMeta slug₁ d₁ body).readingTime = readingTimeText body :=
  ⟨rfl, rfl, rfl⟩

end Zejzl
